import Mathlib

/-!
Verification of the MedCortex retrieval-and-verification pipeline.

This file gives a shallow embedding, in Lean 4, of the core algorithms of the
repository (hybrid search stores, reciprocal-rank fusion, reranking, the
complexity heuristic, ingestion chunk splitting, generator output cleaning,
claim verification, and the orchestrator recursion control), translated
definition-by-definition from the Python source, and proves or refutes the
frozen specification claims about them.

Python strings are modelled as Lean `String`/`List Char`; Python floats are
modelled as exact rationals `ℚ`; Python exceptions as `Except`/`Option`;
Python dicts (which preserve insertion order) as association lists.
-/

namespace MedCortex

/-! ## Basic string helpers (Python `str.lower`, `in`, `startswith`, `strip`, `upper`) -/

/-- ASCII lower-casing of a character, as Python `str.lower` acts on ASCII. -/
def lowerChar (c : Char) : Char :=
  if 65 ≤ c.toNat && c.toNat ≤ 90 then Char.ofNat (c.toNat + 32) else c

/-- ASCII upper-casing of a character, as Python `str.upper` acts on ASCII. -/
def upperChar (c : Char) : Char :=
  if 97 ≤ c.toNat && c.toNat ≤ 122 then Char.ofNat (c.toNat - 32) else c

def lowerL (l : List Char) : List Char := l.map lowerChar

def lowerStr (s : String) : String := ⟨lowerL s.data⟩

def upperStr (s : String) : String := ⟨s.data.map upperChar⟩

/-- Substring test on character lists: Python `needle in hay`. -/
def containsL (needle : List Char) : List Char → Bool
  | [] => needle.isPrefixOf []
  | c :: t => needle.isPrefixOf (c :: t) || containsL needle t

/-- Python `sub in s`. -/
def containsStr (s sub : String) : Bool := containsL sub.data s.data

/-- Python `s.startswith(sub)`. -/
def startsWithStr (s sub : String) : Bool := sub.data.isPrefixOf s.data

/-- `sub` occurs as a contiguous substring of `s`. -/
def Occurs (sub s : String) : Prop :=
  ∃ pre post : List Char, s.data = pre ++ sub.data ++ post

theorem containsL_iff (needle hay : List Char) :
    containsL needle hay = true ↔ ∃ pre post, hay = pre ++ needle ++ post := by
  induction hay with
  | nil =>
    simp only [containsL, List.isPrefixOf_iff_prefix]
    constructor
    · intro h
      rcases h with ⟨t, ht⟩
      exact ⟨[], t, by simp [← ht]⟩
    · rintro ⟨pre, post, h⟩
      exact ⟨post, by
        have : pre = [] ∧ needle ++ post = [] := by
          constructor
          · cases pre with
            | nil => rfl
            | cons a l => simp at h
          · cases pre with
            | nil => simpa using h.symm
            | cons a l => simp at h
        simp [this.2]⟩
  | cons c t ih =>
    simp only [containsL, Bool.or_eq_true, List.isPrefixOf_iff_prefix, ih]
    constructor
    · rintro (⟨u, hu⟩ | ⟨pre, post, h⟩)
      · exact ⟨[], u, by simp [← hu]⟩
      · exact ⟨c :: pre, post, by simp [h]⟩
    · rintro ⟨pre, post, h⟩
      cases pre with
      | nil =>
        left
        exact ⟨post, by simpa using h.symm⟩
      | cons a l =>
        right
        simp only [List.cons_append, List.cons.injEq] at h
        exact ⟨l, post, h.2⟩

theorem containsStr_iff (s sub : String) : containsStr s sub = true ↔ Occurs sub s :=
  containsL_iff sub.data s.data

/-! ## C7: the complexity heuristic (`QueryPipeline._is_complex_query`) -/

/-- The complexity-indicator substrings listed in `_is_complex_query`. -/
def complexityIndicators : List String :=
  [" and ", " also ", " furthermore ", " additionally ", " what ", " how ", " why ",
   " compare ", " difference ", " as described ", " according to ", " in paper ",
   " in document ", " standard ", " treatment ", " side effects ", " outcomes "]

/-- The question words counted by `_is_complex_query`. -/
def questionWords : List String :=
  ["what", "how", "why", "when", "where", "which", "who"]

/-- `QueryPipeline._is_complex_query`: count question words present as substrings of the
lowercased question, count indicator substrings, and classify as in the source. -/
def isComplexQuery (question : String) : Bool :=
  let questionLower := lowerStr question
  let questionCount := (questionWords.filter (fun w => containsStr questionLower w)).length
  let indicatorCount :=
    (complexityIndicators.filter (fun ind => containsStr questionLower ind)).length
  decide (2 ≤ questionCount) || decide (2 ≤ indicatorCount) ||
    (decide (50 < question.length) && decide (1 ≤ indicatorCount))

theorem two_le_filter_iff {α : Type _} {l : List α} (hl : l.Nodup) (p : α → Bool) :
    2 ≤ (l.filter p).length ↔
      ∃ a ∈ l, ∃ b ∈ l, a ≠ b ∧ p a = true ∧ p b = true := by
  constructor
  · intro h
    match hfl : l.filter p with
    | [] => rw [hfl] at h; simp at h
    | [a] => rw [hfl] at h; simp at h
    | a :: b :: t =>
      have ha : a ∈ l.filter p := by rw [hfl]; simp
      have hb : b ∈ l.filter p := by rw [hfl]; simp
      have hnd : (l.filter p).Nodup := hl.filter p
      rw [hfl] at hnd
      have hab : a ≠ b := by
        intro hEq
        subst hEq
        simp at hnd
      exact ⟨a, (List.mem_filter.mp ha).1, b, (List.mem_filter.mp hb).1, hab,
        (List.mem_filter.mp ha).2, (List.mem_filter.mp hb).2⟩
  · rintro ⟨a, hal, b, hbl, hab, hpa, hpb⟩
    have ha : a ∈ l.filter p := List.mem_filter.mpr ⟨hal, hpa⟩
    have hb : b ∈ l.filter p := List.mem_filter.mpr ⟨hbl, hpb⟩
    match hfl : l.filter p with
    | [] => rw [hfl] at ha; simp at ha
    | [x] =>
      rw [hfl] at ha hb
      simp at ha hb
      exact absurd (ha.trans hb.symm) hab
    | x :: y :: t => simp

theorem one_le_filter_iff {α : Type _} (l : List α) (p : α → Bool) :
    1 ≤ (l.filter p).length ↔ ∃ a ∈ l, p a = true := by
  constructor
  · intro h
    match hfl : l.filter p with
    | [] => rw [hfl] at h; simp at h
    | a :: t =>
      have ha : a ∈ l.filter p := by rw [hfl]; simp
      exact ⟨a, (List.mem_filter.mp ha).1, (List.mem_filter.mp ha).2⟩
  · rintro ⟨a, hal, hpa⟩
    have ha : a ∈ l.filter p := List.mem_filter.mpr ⟨hal, hpa⟩
    match hfl : l.filter p with
    | [] => rw [hfl] at ha; simp at ha
    | x :: t => simp

/-- C7: `_is_complex_query(q)` returns true iff at least 2 distinct question words occur
in the lowercased question, or at least 2 distinct complexity indicators occur, or the
question is longer than 50 characters and at least one indicator occurs. -/
theorem isComplexQuery_iff (q : String) :
    isComplexQuery q = true ↔
      ((∃ w₁ ∈ questionWords, ∃ w₂ ∈ questionWords,
          w₁ ≠ w₂ ∧ Occurs w₁ (lowerStr q) ∧ Occurs w₂ (lowerStr q)) ∨
       (∃ i₁ ∈ complexityIndicators, ∃ i₂ ∈ complexityIndicators,
          i₁ ≠ i₂ ∧ Occurs i₁ (lowerStr q) ∧ Occurs i₂ (lowerStr q)) ∨
       (50 < q.length ∧ ∃ i ∈ complexityIndicators, Occurs i (lowerStr q))) := by
  have hqw : questionWords.Nodup := by decide
  have hci : complexityIndicators.Nodup := by decide
  unfold isComplexQuery
  simp only [Bool.or_eq_true, Bool.and_eq_true, decide_eq_true_eq]
  rw [two_le_filter_iff hqw, two_le_filter_iff hci, one_le_filter_iff]
  simp only [containsStr_iff]
  rw [or_assoc]

/-! ## C9: ingestion chunk splitting
(`IngestionPipeline._split_oversized_chunk` / `_ensure_chunks_are_safe`)

Chunks are modelled as `List Char` (Python strings, `len` = number of characters). -/

/-- Python whitespace characters (`str.split()` / `\s` for ASCII text). -/
def isWs (c : Char) : Bool :=
  c = ' ' || c = '\t' || c = '\n' || c = '\r' || c = '\x0b' || c = '\x0c'

/-- Fuelled worker for `splitWords`; fuel `≥` length of the input suffices. -/
def splitWordsF : Nat → List Char → List (List Char)
  | 0, _ => []
  | _ + 1, [] => []
  | fuel + 1, c :: t =>
    if isWs c then splitWordsF fuel t
    else ((c :: t).takeWhile (fun d => !isWs d)) :: splitWordsF fuel (t.dropWhile (fun d => !isWs d))

/-- Python `chunk.split()`: split on whitespace runs, discarding empty pieces. -/
def splitWords (s : List Char) : List (List Char) := splitWordsF s.length s

/-- Python `" ".join(current)`. -/
def joinSpace : List (List Char) → List Char
  | [] => []
  | [w] => w
  | w :: ws => w ++ (' ' :: joinSpace ws)

/-- `word[i : i + max_chars]` pieces, i.e. `range(0, len(word), max_chars)` slicing.
Fuelled; the `max n 1` mirrors that the source only calls this with `max_chars ≥ 1`. -/
def chunksOfCharsF (n : Nat) : Nat → List Char → List (List Char)
  | 0, _ => []
  | _, [] => []
  | fuel + 1, c :: t =>
    ((c :: t).take (max n 1)) :: chunksOfCharsF n fuel ((c :: t).drop (max n 1))

def chunksOfChars (n : Nat) (l : List Char) : List (List Char) := chunksOfCharsF n l.length l

/-- The word-accumulation loop of `_split_oversized_chunk` (lines 82-107): `current` is
the list of words of the chunk being built, `currentLen` the running character count. -/
def splitLoop (maxChars : Nat) : List (List Char) → List (List Char) → Nat → List (List Char)
  | [], current, _ => if current.isEmpty then [] else [joinSpace current]
  | w :: ws, current, currentLen =>
    let wws := (if current.isEmpty then 0 else 1) + w.length
    if currentLen + wws ≤ maxChars then
      splitLoop maxChars ws (current ++ [w]) (currentLen + wws)
    else
      (if current.isEmpty then [] else [joinSpace current]) ++
        (if maxChars < w.length then
          chunksOfChars maxChars w ++ splitLoop maxChars ws [] 0
        else splitLoop maxChars ws [w] w.length)

/-- `IngestionPipeline._split_oversized_chunk`. -/
def splitOversizedChunk (chunk : List Char) (maxChars : Nat) : List (List Char) :=
  if chunk.length ≤ maxChars then [chunk]
  else splitLoop maxChars (splitWords chunk) [] 0

/-- `IngestionPipeline._ensure_chunks_are_safe`. -/
def ensureChunksAreSafe (chunks : List (List Char)) (maxChars : Nat) : List (List Char) :=
  match chunks with
  | [] => []
  | c :: rest =>
    (if c.length ≤ maxChars then [c] else splitOversizedChunk c maxChars) ++
      ensureChunksAreSafe rest maxChars

theorem joinSpace_snoc (t : List (List Char)) (w : List Char) (h : t ≠ []) :
    (joinSpace (t ++ [w])).length = (joinSpace t).length + 1 + w.length := by
  induction t with
  | nil => exact absurd rfl h
  | cons x t ih =>
    cases t with
    | nil => simp [joinSpace]; omega
    | cons y t' =>
      have hne : y :: t' ≠ [] := by simp
      have hx : joinSpace ((x :: y :: t') ++ [w]) = x ++ (' ' :: joinSpace ((y :: t') ++ [w])) := by
        simp only [List.cons_append]
        rfl
      have hx2 : joinSpace (x :: y :: t') = x ++ (' ' :: joinSpace (y :: t')) := rfl
      rw [hx, hx2]
      simp only [List.length_append, List.length_cons, ih hne]
      omega

theorem chunksOfCharsF_safe (n fuel : Nat) (l : List Char) :
    ∀ p ∈ chunksOfCharsF n fuel l, p.length ≤ max n 1 := by
  induction fuel generalizing l with
  | zero => intro p hp; simp [chunksOfCharsF] at hp
  | succ fuel ih =>
    intro p hp
    cases l with
    | nil => simp [chunksOfCharsF] at hp
    | cons c t =>
      simp only [chunksOfCharsF, List.mem_cons] at hp
      rcases hp with h | h
      · subst h
        simpa using List.length_take_le (max n 1) (c :: t)
      · exact ih _ p h

theorem splitLoop_safe (maxChars : Nat) (hmax : 1 ≤ maxChars) :
    ∀ (ws current : List (List Char)) (clen : Nat),
      (joinSpace current).length = clen → clen ≤ maxChars →
      ∀ p ∈ splitLoop maxChars ws current clen, p.length ≤ maxChars := by
  intro ws
  induction ws with
  | nil =>
    intro current clen hjoin hle p hp
    simp only [splitLoop] at hp
    by_cases hc : current.isEmpty
    · simp [hc] at hp
    · simp only [hc, if_neg] at hp
      simp only [Bool.false_eq_true, if_false, List.mem_singleton] at hp
      subst hp
      omega
  | cons w ws ih =>
    intro current clen hjoin hle p hp
    simp only [splitLoop] at hp
    by_cases hfit : clen + ((if current.isEmpty then 0 else 1) + w.length) ≤ maxChars
    · rw [if_pos hfit] at hp
      refine ih (current ++ [w]) _ ?_ hfit p hp
      by_cases hc : current.isEmpty
      · have : current = [] := by
          cases current with
          | nil => rfl
          | cons a b => simp [List.isEmpty] at hc
        subst this
        simp only [joinSpace, List.length_nil] at hjoin
        simp [joinSpace, hc, ← hjoin]
      · have hne : current ≠ [] := by
          intro h; subst h; simp [List.isEmpty] at hc
        rw [joinSpace_snoc current w hne]
        simp only [hc, Bool.false_eq_true, if_false]
        omega
    · rw [if_neg hfit] at hp
      rw [List.mem_append] at hp
      rcases hp with hp | hp
      · by_cases hc : current.isEmpty
        · simp [hc] at hp
        · simp only [hc, Bool.false_eq_true, if_false, List.mem_singleton] at hp
          subst hp
          omega
      · by_cases hlong : maxChars < w.length
        · rw [if_pos hlong, List.mem_append] at hp
          rcases hp with hp | hp
          · have := chunksOfCharsF_safe maxChars w.length w p hp
            omega
          · exact ih [] 0 (by simp [joinSpace]) (by omega) p hp
        · rw [if_neg hlong] at hp
          exact ih [w] w.length (by simp [joinSpace]) (by omega) p hp

/-- C9: for `max_chars ≥ 1`, every chunk returned by `_ensure_chunks_are_safe`
(and every piece returned by `_split_oversized_chunk`) has at most `max_chars`
characters. -/
theorem ensureChunksAreSafe_safe (chunks : List (List Char)) (maxChars : Nat)
    (hmax : 1 ≤ maxChars) :
    (∀ c ∈ ensureChunksAreSafe chunks maxChars, c.length ≤ maxChars) ∧
    (∀ chunk : List Char, ∀ p ∈ splitOversizedChunk chunk maxChars, p.length ≤ maxChars) := by
  have hsplit : ∀ chunk : List Char, ∀ p ∈ splitOversizedChunk chunk maxChars,
      p.length ≤ maxChars := by
    intro chunk p hp
    simp only [splitOversizedChunk] at hp
    by_cases hlen : chunk.length ≤ maxChars
    · rw [if_pos hlen, List.mem_singleton] at hp
      subst hp; exact hlen
    · rw [if_neg hlen] at hp
      exact splitLoop_safe maxChars hmax (splitWords chunk) [] 0 (by simp [joinSpace])
        (by omega) p hp
  refine ⟨?_, hsplit⟩
  induction chunks with
  | nil => intro c hc; simp [ensureChunksAreSafe] at hc
  | cons ck rest ih =>
    intro c hc
    simp only [ensureChunksAreSafe, List.mem_append] at hc
    rcases hc with hc | hc
    · by_cases hlen : ck.length ≤ maxChars
      · rw [if_pos hlen, List.mem_singleton] at hc
        subst hc; exact hlen
      · rw [if_neg hlen] at hc
        exact hsplit ck c hc
    · exact ih c hc

/-- Witness for C9 at a concrete input: splitting `"alpha beta gamma"` with
ceiling 6 produces only pieces of length at most 6. -/
theorem ensureChunksAreSafe_safe_witness :
    ("alpha".data).length ≤ 6 := by
  have h := ensureChunksAreSafe_safe ["alpha beta gamma".data] 6 (by decide)
  exact h.1 "alpha".data (by decide)

/-! ## C1/C2: the vector store (`FaissStore`) and keyword store (`BM25Store`)

`FaissStore.search` runs the FAISS flat inner-product index over the stored
(normalised) embeddings; we model the index by the list of query-to-chunk
similarity scores `sims` (one per stored chunk, in insertion order) and the
exact top-`k` selection the flat index performs (descending score, ties by
insertion order). `BM25Store.search` sorts `range(len(scores))` by descending
BM25 score (Python's stable `sorted`), so it uses the same ranking. -/

structure ChunkMeta where
  id : String
  doc_id : String
  page_num : Int
  chunk_index : Int
  text : String
  source_uri : String
deriving DecidableEq, Inhabited

structure FaissHit extends ChunkMeta where
  score : ℚ
deriving DecidableEq

structure BM25Hit extends ChunkMeta where
  bm25_score : ℚ
deriving DecidableEq

/-- Python truthiness of the `allowed_doc_ids` argument (`None` and `[]` are falsy). -/
def allowedTruthy : Option (List String) → Bool
  | none => false
  | some l => !l.isEmpty

def scoreAt (scores : List ℚ) (i : Nat) : ℚ := scores.getD i 0

/-- Insert index `i` into a descending-by-score list, after all indices of
greater-or-equal score (stable: ties keep insertion order). -/
def insertRanked (scores : List ℚ) (i : Nat) : List Nat → List Nat
  | [] => [i]
  | j :: rest =>
    if scoreAt scores j < scoreAt scores i then i :: j :: rest
    else j :: insertRanked scores i rest

/-- All indices `0..len-1` ranked by descending score, ties by ascending index. -/
def rankDesc (scores : List ℚ) : List Nat :=
  (List.range scores.length).foldl (fun acc i => insertRanked scores i acc) []

/-- The shared fetch-and-filter loop of `FaissStore.search` (lines 109-121) and
`BM25Store.search` (lines 74-83): scan ranked indices, skip invalid indices,
skip chunks whose `doc_id` is filtered out, and stop once `top_k` hits are
collected (the `break` fires after an append once `len(hits) >= top_k`). -/
def fetchFiltered (docs : List String) (allowed : Option (List String)) (topK : Nat) :
    Nat → List Nat → List Nat
  | _, [] => []
  | cnt, i :: rest =>
    if i < docs.length then
      if allowedTruthy allowed && !((allowed.getD []).contains (docs.getD i "")) then
        fetchFiltered docs allowed topK cnt rest
      else
        i :: (if topK ≤ cnt + 1 then [] else fetchFiltered docs allowed topK (cnt + 1) rest)
    else fetchFiltered docs allowed topK cnt rest

/-- `FaissStore.search`: over-fetch `3*top_k` when a (truthy) filter is given,
query the index for `min(search_k, ntotal)` results, then filter. -/
def faissSearch (metadata : List ChunkMeta) (sims : List ℚ) (topK : Nat)
    (allowed : Option (List String)) : List FaissHit :=
  if sims.isEmpty then []
  else
    let searchK := if allowedTruthy allowed then topK * 3 else topK
    let window := (rankDesc sims).take (min searchK sims.length)
    (fetchFiltered (metadata.map (fun m => m.doc_id)) allowed topK 0 window).map
      (fun i => { toChunkMeta := metadata.getD i default, score := scoreAt sims i })

/-- `BM25Store.search`: same over-fetch-and-filter policy over the BM25 ranking. -/
def bm25Search (chunkMap : List ChunkMeta) (scores : List ℚ) (topK : Nat)
    (allowed : Option (List String)) : List BM25Hit :=
  if chunkMap.isEmpty then []
  else
    let searchK := if allowedTruthy allowed then topK * 3 else topK
    let topIndices := (rankDesc scores).take searchK
    (fetchFiltered (chunkMap.map (fun m => m.doc_id)) allowed topK 0 topIndices).map
      (fun i => { toChunkMeta := chunkMap.getD i default, bm25_score := scoreAt scores i })

/-- The emission condition of the fetch loop, as a predicate on an index. -/
def keepIdx (docs : List String) (allowed : Option (List String)) (i : Nat) : Bool :=
  decide (i < docs.length) &&
    !(allowedTruthy allowed && !((allowed.getD []).contains (docs.getD i "")))

theorem fetchFiltered_length (docs : List String) (allowed : Option (List String))
    (topK : Nat) :
    ∀ (idxs : List Nat) (cnt : Nat), cnt < topK →
      (fetchFiltered docs allowed topK cnt idxs).length
        = min (topK - cnt) (idxs.countP (keepIdx docs allowed)) := by
  intro idxs
  induction idxs with
  | nil => intro cnt hcnt; simp [fetchFiltered]
  | cons i rest ih =>
    intro cnt hcnt
    simp only [fetchFiltered]
    by_cases hvalid : i < docs.length
    · rw [if_pos hvalid]
      cases hskip : (allowedTruthy allowed && !((allowed.getD []).contains (docs.getD i "")))
      · rw [if_neg (by simp)]
        have hkeep : keepIdx docs allowed i = true := by
          unfold keepIdx
          rw [hskip]
          simp [hvalid]
        rw [List.countP_cons, hkeep]
        by_cases hlast : topK ≤ cnt + 1
        · rw [if_pos hlast]
          simp
          omega
        · rw [if_neg hlast]
          simp only [List.length_cons]
          rw [ih (cnt + 1) (by omega)]
          simp
          omega
      · rw [if_pos rfl]
        have hkeep : keepIdx docs allowed i = false := by
          unfold keepIdx
          rw [hskip]
          simp
        rw [ih cnt hcnt, List.countP_cons, hkeep]
        simp
    · rw [if_neg hvalid]
      have hkeep : keepIdx docs allowed i = false := by simp [keepIdx, hvalid]
      rw [ih cnt hcnt, List.countP_cons, hkeep]
      simp

/-- Whether the chunk at ranked index `i` exists and its `doc_id` passes filter `D`. -/
def matchesFilter (metadata : List ChunkMeta) (D : List String) (i : Nat) : Bool :=
  match (metadata.map (fun m => m.doc_id))[i]? with
  | some d => D.contains d
  | none => false

theorem keepIdx_eq_matchesFilter (metadata : List ChunkMeta) (D : List String)
    (hD : D ≠ []) (i : Nat) :
    keepIdx (metadata.map (fun m => m.doc_id)) (some D) i = matchesFilter metadata D i := by
  have htruthy : allowedTruthy (some D) = true := by
    cases D with
    | nil => exact absurd rfl hD
    | cons a t => rfl
  by_cases hvalid : i < (metadata.map (fun m => m.doc_id)).length
  · have hsome : (metadata.map (fun m => m.doc_id))[i]?
        = some ((metadata.map (fun m => m.doc_id)).getD i "") := by
      rw [List.getElem?_eq_getElem hvalid, List.getD_eq_getElem _ _ hvalid]
    simp only [keepIdx, matchesFilter, hsome, htruthy, Option.getD_some, Bool.true_and,
      Bool.not_not, decide_eq_true hvalid, Bool.true_and]
  · have hnone : (metadata.map (fun m => m.doc_id))[i]? = none := by
      rw [List.getElem?_eq_none_iff]
      omega
    have hdec : decide (i < (metadata.map (fun m => m.doc_id)).length) = false := by
      rw [decide_eq_false_iff_not]
      omega
    simp only [keepIdx, matchesFilter, hnone, hdec, Bool.false_and]

/-- C1 (amended): with a non-empty document filter `D` and positive `top_k`, each
store returns exactly `min(top_k, number of matching chunks among the top
`min(3*top_k, N)` ranked chunks)` hits — not `min(top_k, total number of matching
chunks)`: nothing is fetched beyond the single 3x over-fetch window. -/
theorem filtered_search_window_count (metadata chunkMap : List ChunkMeta)
    (sims kwScores : List ℚ) (topK : Nat) (D : List String)
    (htop : 0 < topK) (hD : D ≠ []) :
    (faissSearch metadata sims topK (some D)).length
      = min topK (((rankDesc sims).take (min (topK * 3) sims.length)).countP
          (matchesFilter metadata D)) ∧
    (bm25Search chunkMap kwScores topK (some D)).length
      = min topK (((rankDesc kwScores).take (topK * 3)).countP
          (matchesFilter chunkMap D)) := by
  have htruthy : allowedTruthy (some D) = true := by
    cases D with
    | nil => exact absurd rfl hD
    | cons a t => simp [allowedTruthy]
  constructor
  · by_cases hsims : sims.isEmpty
    · have hnil : sims = [] := by
        cases sims with
        | nil => rfl
        | cons a t => simp [List.isEmpty] at hsims
      subst hnil
      have hwin : ((rankDesc ([] : List ℚ)).take (min (topK * 3) ([] : List ℚ).length)) = [] := by
        simp
      rw [hwin]
      simp [faissSearch]
    · simp only [faissSearch, if_neg hsims, htruthy, if_true, List.length_map]
      rw [fetchFiltered_length _ _ _ _ 0 htop]
      rw [List.countP_congr (fun i _ => by rw [keepIdx_eq_matchesFilter metadata D hD i])]
      omega
  · by_cases hcm : chunkMap.isEmpty
    · have hnil : chunkMap = [] := by
        cases chunkMap with
        | nil => rfl
        | cons a t => simp [List.isEmpty] at hcm
      subst hnil
      have hcount : List.countP (matchesFilter [] D) ((rankDesc kwScores).take (topK * 3)) = 0 :=
        List.countP_eq_zero.mpr (fun i _ => by simp [matchesFilter])
      rw [hcount]
      simp [bm25Search]
    · simp only [bm25Search, if_neg hcm, htruthy, if_true, List.length_map]
      rw [fetchFiltered_length _ _ _ _ 0 htop]
      rw [List.countP_congr (fun i _ => by rw [keepIdx_eq_matchesFilter chunkMap D hD i])]
      omega

/-- A concrete 4-chunk store: three chunks of document `a` ranked above the one
chunk of document `b`. -/
def storeA : List ChunkMeta :=
  [⟨"1", "a", 0, 0, "t1", "u"⟩, ⟨"2", "a", 0, 1, "t2", "u"⟩,
   ⟨"3", "a", 0, 2, "t3", "u"⟩, ⟨"4", "b", 0, 3, "t4", "u"⟩]

def simsA : List ℚ := [10, 9, 8, 1]

/-- Witness for the amended C1 at a concrete input: with filter `D = ["b"]` and
`top_k = 1`, the matching chunk is ranked 4th, outside the over-fetch window of
size 3, so 0 hits are returned — matching the window-count formula. -/
theorem filtered_search_window_count_witness :
    (faissSearch storeA simsA 1 (some ["b"])).length
      = min 1 (((rankDesc simsA).take (min (1 * 3) simsA.length)).countP
          (matchesFilter storeA ["b"])) :=
  (filtered_search_window_count storeA [] simsA [] 1 ["b"] (by decide) (by decide)).1

/-- Counterexample to C1 as stated: in `storeA` there is exactly one indexed chunk
with `doc_id ∈ D = ["b"]` and `top_k = 1`, yet `search` returns 0 hits, not
`min(1, 1) = 1`: the only matching chunk lies below the 3x over-fetch window and
the code never fetches more. -/
theorem filtered_search_incomplete :
    ¬ ((faissSearch storeA simsA 1 (some ["b"])).length
        = min 1 (storeA.countP (fun m => (["b"] : List String).contains m.doc_id))) := by
  decide

/-! ### C2: `FaissStore.upsert_chunks` and the dimension invariant -/

structure FaissRecord where
  id : String
  doc_id : String
  page_num : Int
  chunk_index : Int
  text : String
  embedding : List ℚ
  source_uri : String
deriving DecidableEq

structure FaissState where
  embeddings : List (List ℚ)
  metadata : List ChunkMeta
  dim : Nat
deriving DecidableEq

def recordMeta (r : FaissRecord) : ChunkMeta :=
  ⟨r.id, r.doc_id, r.page_num, r.chunk_index, r.text, r.source_uri⟩

/-- `FaissStore.upsert_chunks` (lines 65-97). The session state (`embeddings`,
`metadata`) is extended in place first; only then is the index rebuilt with
`np.array(all_embeddings, dtype=np.float32)`, which raises `ValueError` on a
ragged (mixed-dimension) list — after the mutation already happened. There is
no dimension check and no configuration error anywhere in the function. -/
def upsertChunks (s : FaissState) (records : List FaissRecord) :
    FaissState × Except String Nat :=
  if records.isEmpty then (s, Except.ok 0)
  else
    let s1 : FaissState :=
      { s with
        embeddings := s.embeddings ++ records.map (fun r => r.embedding),
        metadata := s.metadata ++ records.map recordMeta }
    match s1.embeddings with
    | [] => (s1, Except.ok records.length)
    | v :: _ =>
      if s1.embeddings.all (fun w => w.length = v.length) then
        ({ s1 with dim := v.length }, Except.ok records.length)
      else (s1, Except.error "ValueError")

def mismatchedRecord : FaissRecord := ⟨"2", "b", 0, 0, "t2", [1, 2, 3], "u"⟩

def nonEmptyState : FaissState := ⟨[[1, 0]], [⟨"1", "a", 0, 0, "t1", "u"⟩], 2⟩

/-- C2 at the failing input: upserting a 3-dimensional vector into a store holding a
2-dimensional vector raises `ValueError` (not a configuration error) *after* the
session state has been extended with the mismatched embedding and metadata — the
store is not left unchanged; upserting the same batch into an empty store succeeds
and fixes the store dimensionality to 3. -/
theorem upsertChunks_dimension_mismatch :
    (upsertChunks nonEmptyState [mismatchedRecord]).2 = Except.error "ValueError" ∧
    (upsertChunks nonEmptyState [mismatchedRecord]).1 ≠ nonEmptyState ∧
    (upsertChunks nonEmptyState [mismatchedRecord]).1.embeddings = [[1, 0], [1, 2, 3]] ∧
    (upsertChunks ⟨[], [], 2⟩ [mismatchedRecord]).2 = Except.ok 1 ∧
    (upsertChunks ⟨[], [], 2⟩ [mismatchedRecord]).1.dim = 3 :=
  ⟨rfl, by decide, by decide, rfl, by decide⟩

/-! ## C5/C10: per-claim verification (`AnswerVerifier.verify_claim`)

The generator is modelled as an oracle `respond : String -> Option String` mapping
the NLI prompt to the raw model response (`none` models the call raising an
exception, which the source catches and skips). The trace of prompts actually
sent to the generator is returned alongside the result, so "the classifier is
never invoked on chunk i" is expressible. -/

/-- Python `str.strip()` on ASCII text. -/
def stripL (l : List Char) : List Char :=
  ((l.dropWhile isWs).reverse.dropWhile isWs).reverse

def stripStr (s : String) : String := ⟨stripL s.data⟩

/-- `chunk[:500] if len(chunk) > 500 else chunk`. -/
def chunkPreview (chunk : String) : String :=
  if 500 < chunk.length then ⟨chunk.data.take 500⟩ else chunk

/-- The NLI prompt built by `verify_claim` (verifier.py lines 127-133). -/
def mkVerifPrompt (claim chunkPrev : String) : String :=
  "Given the source text, does it support the following claim? Answer only \x27Supports\x27, \x27Refutes\x27, or \x27Not Mentioned\x27.\n\nSource: "
    ++ chunkPrev ++ "\n\nClaim: " ++ claim
    ++ "\n\nAnswer (only \x27Supports\x27, \x27Refutes\x27, or \x27Not Mentioned\x27):"

structure VerifyResult where
  status : String
  chunk_index : Int
  confidence : ℚ
deriving DecidableEq

/-- `"SUPPORTS" in response or response.startswith("SUPPORT")` after strip+upper. -/
def respSupports (resp : String) : Bool :=
  containsStr (upperStr (stripStr resp)) "SUPPORTS"
    || startsWithStr (upperStr (stripStr resp)) "SUPPORT"

/-- `"REFUTES" in response or response.startswith("REFUTE")` after strip+upper. -/
def respRefutes (resp : String) : Bool :=
  containsStr (upperStr (stripStr resp)) "REFUTES"
    || startsWithStr (upperStr (stripStr resp)) "REFUTE"

/-- The scan loop of `verify_claim` (lines 123-157): `best` is
`(best_status, best_chunk_idx)`, `idx` the index of the next chunk. Returns the
final best pair and the list of prompts sent to the generator. -/
def verifyClaimGo (respond : String → Option String) (claim : String) :
    List String → Nat → String × Int → (String × Int) × List String
  | [], _, best => (best, [])
  | chunk :: rest, idx, best =>
    let prompt := mkVerifPrompt claim (chunkPreview chunk)
    match respond prompt with
    | none =>
      let r := verifyClaimGo respond claim rest (idx + 1) best
      (r.1, prompt :: r.2)
    | some resp =>
      if respSupports resp then
        ((if best.1 ≠ "Supports" then ("Supports", (idx : Int)) else best), [prompt])
      else if respRefutes resp then
        let best2 := if best.1 = "Not Mentioned" then ("Refutes", (idx : Int)) else best
        let r2 := verifyClaimGo respond claim rest (idx + 1) best2
        (r2.1, prompt :: r2.2)
      else
        let r2 := verifyClaimGo respond claim rest (idx + 1) best
        (r2.1, prompt :: r2.2)

/-- `AnswerVerifier.verify_claim`, returning the result dict and the prompt trace. -/
def verifyClaim (respond : String → Option String) (claim : String)
    (sourceChunks : List String) : VerifyResult × List String :=
  if sourceChunks.isEmpty then
    ({ status := "Not Mentioned", chunk_index := -1, confidence := 0 }, [])
  else
    let r := verifyClaimGo respond claim sourceChunks 0 ("Not Mentioned", -1)
    ({ status := r.1.1, chunk_index := r.1.2,
       confidence := if r.1.1 = "Supports" then 1 else 1/2 }, r.2)

/-- The three-way classification the scan derives from the oracle response for one
chunk (`none` = the generator call failed). -/
def classifyChunk (respond : String → Option String) (claim chunk : String) :
    Option String :=
  match respond (mkVerifPrompt claim (chunkPreview chunk)) with
  | none => none
  | some resp =>
    if respSupports resp then some "Supports"
    else if respRefutes resp then some "Refutes"
    else some "Not Mentioned"

theorem verifyClaimGo_cons_none {respond : String → Option String} {claim chunk : String}
    (rest : List String) (idx : Nat) (best : String × Int)
    (h : respond (mkVerifPrompt claim (chunkPreview chunk)) = none) :
    verifyClaimGo respond claim (chunk :: rest) idx best
      = ((verifyClaimGo respond claim rest (idx + 1) best).1,
         mkVerifPrompt claim (chunkPreview chunk)
           :: (verifyClaimGo respond claim rest (idx + 1) best).2) := by
  simp [verifyClaimGo, h]

theorem verifyClaimGo_cons_supports {respond : String → Option String}
    {claim chunk resp : String} (rest : List String) (idx : Nat) (best : String × Int)
    (h : respond (mkVerifPrompt claim (chunkPreview chunk)) = some resp)
    (hs : respSupports resp = true) :
    verifyClaimGo respond claim (chunk :: rest) idx best
      = ((if best.1 ≠ "Supports" then ("Supports", (idx : Int)) else best),
         [mkVerifPrompt claim (chunkPreview chunk)]) := by
  simp [verifyClaimGo, h, hs]

theorem verifyClaimGo_cons_refutes {respond : String → Option String}
    {claim chunk resp : String} (rest : List String) (idx : Nat) (best : String × Int)
    (h : respond (mkVerifPrompt claim (chunkPreview chunk)) = some resp)
    (hs : respSupports resp = false) (hr : respRefutes resp = true) :
    verifyClaimGo respond claim (chunk :: rest) idx best
      = ((verifyClaimGo respond claim rest (idx + 1)
            (if best.1 = "Not Mentioned" then ("Refutes", (idx : Int)) else best)).1,
         mkVerifPrompt claim (chunkPreview chunk)
           :: (verifyClaimGo respond claim rest (idx + 1)
                (if best.1 = "Not Mentioned" then ("Refutes", (idx : Int)) else best)).2) := by
  simp [verifyClaimGo, h, hs, hr]

theorem verifyClaimGo_cons_notmentioned {respond : String → Option String}
    {claim chunk resp : String} (rest : List String) (idx : Nat) (best : String × Int)
    (h : respond (mkVerifPrompt claim (chunkPreview chunk)) = some resp)
    (hs : respSupports resp = false) (hr : respRefutes resp = false) :
    verifyClaimGo respond claim (chunk :: rest) idx best
      = ((verifyClaimGo respond claim rest (idx + 1) best).1,
         mkVerifPrompt claim (chunkPreview chunk)
           :: (verifyClaimGo respond claim rest (idx + 1) best).2) := by
  simp [verifyClaimGo, h, hs, hr]

theorem classifyChunk_none {respond : String → Option String} {claim chunk : String}
    (h : respond (mkVerifPrompt claim (chunkPreview chunk)) = none) :
    classifyChunk respond claim chunk = none := by
  simp [classifyChunk, h]

theorem classifyChunk_some {respond : String → Option String} {claim chunk resp : String}
    (h : respond (mkVerifPrompt claim (chunkPreview chunk)) = some resp) :
    classifyChunk respond claim chunk
      = some (if respSupports resp then "Supports"
              else if respRefutes resp then "Refutes" else "Not Mentioned") := by
  simp only [classifyChunk, h]
  by_cases hs : respSupports resp = true
  · simp [hs]
  · rw [Bool.not_eq_true] at hs
    by_cases hr : respRefutes resp = true
    · simp [hs, hr]
    · rw [Bool.not_eq_true] at hr
      simp [hs, hr]

theorem verifyClaimGo_supports (respond : String → Option String) (claim : String) :
    ∀ (pre : List String) (c : String) (post : List String) (idx : Nat)
      (best : String × Int), best.1 ≠ "Supports" →
      (∀ c2 ∈ pre, classifyChunk respond claim c2 ≠ some "Supports") →
      classifyChunk respond claim c = some "Supports" →
      verifyClaimGo respond claim (pre ++ c :: post) idx best
        = (("Supports", ((idx + pre.length : Nat) : Int)),
           (pre ++ [c]).map (fun ch => mkVerifPrompt claim (chunkPreview ch))) := by
  intro pre
  induction pre with
  | nil =>
    intro c post idx best hbest hpre hc
    rw [List.nil_append]
    cases hresp : respond (mkVerifPrompt claim (chunkPreview c)) with
    | none => rw [classifyChunk_none hresp] at hc; exact absurd hc (by simp)
    | some resp =>
      rw [classifyChunk_some hresp] at hc
      cases hs : respSupports resp with
      | false =>
        exfalso
        rw [hs] at hc
        simp only [Bool.false_eq_true, if_false, Option.some.injEq] at hc
        by_cases hr : respRefutes resp = true
        · rw [if_pos hr] at hc; simp at hc
        · rw [if_neg hr] at hc; simp at hc
      | true =>
        rw [verifyClaimGo_cons_supports post idx best hresp hs, if_pos hbest]
        simp
  | cons p pre ih =>
    intro c post idx best hbest hpre hc
    have hp : classifyChunk respond claim p ≠ some "Supports" := hpre p (by simp)
    have hpre2 : ∀ c2 ∈ pre, classifyChunk respond claim c2 ≠ some "Supports" :=
      fun c2 hc2 => hpre c2 (by simp [hc2])
    rw [List.cons_append]
    cases hresp : respond (mkVerifPrompt claim (chunkPreview p)) with
    | none =>
      rw [verifyClaimGo_cons_none (pre ++ c :: post) idx best hresp,
        ih c post (idx + 1) best hbest hpre2 hc]
      rw [show idx + 1 + pre.length = idx + (p :: pre).length from by
        simp only [List.length_cons]; omega]
      simp only [List.cons_append, List.map_cons]
    | some resp =>
      cases hs : respSupports resp with
      | true =>
        exfalso
        apply hp
        rw [classifyChunk_some hresp, hs, if_pos rfl]
      | false =>
        cases hr : respRefutes resp with
        | true =>
          rw [verifyClaimGo_cons_refutes (pre ++ c :: post) idx best hresp hs hr]
          by_cases hb : best.1 = "Not Mentioned"
          · rw [if_pos hb, ih c post (idx + 1) ("Refutes", (idx : Int))
              (by intro hx; simp at hx) hpre2 hc]
            rw [show idx + 1 + pre.length = idx + (p :: pre).length from by
              simp only [List.length_cons]; omega]
            simp only [List.cons_append, List.map_cons]
          · rw [if_neg hb, ih c post (idx + 1) best hbest hpre2 hc]
            rw [show idx + 1 + pre.length = idx + (p :: pre).length from by
              simp only [List.length_cons]; omega]
            simp only [List.cons_append, List.map_cons]
        | false =>
          rw [verifyClaimGo_cons_notmentioned (pre ++ c :: post) idx best hresp hs hr,
            ih c post (idx + 1) best hbest hpre2 hc]
          rw [show idx + 1 + pre.length = idx + (p :: pre).length from by
            simp only [List.length_cons]; omega]
          simp only [List.cons_append, List.map_cons]

theorem verifyClaimGo_inert (respond : String → Option String) (claim : String) :
    ∀ (chunks : List String) (idx : Nat) (best : String × Int),
      best.1 ≠ "Supports" → best.1 ≠ "Not Mentioned" →
      (∀ c2 ∈ chunks, classifyChunk respond claim c2 ≠ some "Supports") →
      verifyClaimGo respond claim chunks idx best
        = (best, chunks.map (fun ch => mkVerifPrompt claim (chunkPreview ch))) := by
  intro chunks
  induction chunks with
  | nil => intro idx best _ _ _; simp [verifyClaimGo]
  | cons p rest ih =>
    intro idx best hbs hbn hall
    have hp : classifyChunk respond claim p ≠ some "Supports" := hall p (by simp)
    have hrest : ∀ c2 ∈ rest, classifyChunk respond claim c2 ≠ some "Supports" :=
      fun c2 hc2 => hall c2 (by simp [hc2])
    cases hresp : respond (mkVerifPrompt claim (chunkPreview p)) with
    | none =>
      rw [verifyClaimGo_cons_none rest idx best hresp, ih (idx + 1) best hbs hbn hrest]
      simp
    | some resp =>
      cases hs : respSupports resp with
      | true =>
        exfalso
        apply hp
        rw [classifyChunk_some hresp, hs, if_pos rfl]
      | false =>
        cases hr : respRefutes resp with
        | true =>
          rw [verifyClaimGo_cons_refutes rest idx best hresp hs hr, if_neg hbn,
            ih (idx + 1) best hbs hbn hrest]
          simp
        | false =>
          rw [verifyClaimGo_cons_notmentioned rest idx best hresp hs hr,
            ih (idx + 1) best hbs hbn hrest]
          simp

theorem verifyClaimGo_skip (respond : String → Option String) (claim : String) :
    ∀ (pre rest : List String) (idx : Nat) (best : String × Int),
      (∀ c2 ∈ pre, classifyChunk respond claim c2 ≠ some "Supports"
        ∧ classifyChunk respond claim c2 ≠ some "Refutes") →
      verifyClaimGo respond claim (pre ++ rest) idx best
        = ((verifyClaimGo respond claim rest (idx + pre.length) best).1,
           pre.map (fun ch => mkVerifPrompt claim (chunkPreview ch))
             ++ (verifyClaimGo respond claim rest (idx + pre.length) best).2) := by
  intro pre
  induction pre with
  | nil => intro rest idx best _; simp
  | cons p pre ih =>
    intro rest idx best hall
    have hp := hall p (by simp)
    have hpre : ∀ c2 ∈ pre, classifyChunk respond claim c2 ≠ some "Supports"
        ∧ classifyChunk respond claim c2 ≠ some "Refutes" :=
      fun c2 hc2 => hall c2 (by simp [hc2])
    rw [List.cons_append]
    cases hresp : respond (mkVerifPrompt claim (chunkPreview p)) with
    | none =>
      rw [verifyClaimGo_cons_none (pre ++ rest) idx best hresp, ih rest (idx + 1) best hpre]
      have harith : idx + 1 + pre.length = idx + (p :: pre).length := by
        simp only [List.length_cons]
        omega
      rw [harith]
      simp
    | some resp =>
      cases hs : respSupports resp with
      | true =>
        exfalso
        apply hp.1
        rw [classifyChunk_some hresp, hs, if_pos rfl]
      | false =>
        cases hr : respRefutes resp with
        | true =>
          exfalso
          apply hp.2
          rw [classifyChunk_some hresp, hs, hr]
          simp
        | false =>
          rw [verifyClaimGo_cons_notmentioned (pre ++ rest) idx best hresp hs hr,
            ih rest (idx + 1) best hpre]
          have harith : idx + 1 + pre.length = idx + (p :: pre).length := by
            simp only [List.length_cons]
            omega
          rw [harith]
          simp

/-- C5: chunks are scanned in input order; scanning stops at the first chunk
classified "Supports" (the generator is invoked exactly on chunks `0..j` and the
result is status Supports, index j, confidence 1); a "Refutes" chunk is recorded
as best-so-far only when nothing but "Not Mentioned" was seen before, and
scanning continues to the end; if no chunk yields Supports or Refutes the final
status is "Not Mentioned" with index -1. -/
theorem verifyClaim_scan (respond : String → Option String) (claim : String) :
    (∀ (pre : List String) (c : String) (post : List String),
       (∀ c2 ∈ pre, classifyChunk respond claim c2 ≠ some "Supports") →
       classifyChunk respond claim c = some "Supports" →
       verifyClaim respond claim (pre ++ c :: post)
         = ({ status := "Supports", chunk_index := (pre.length : Int), confidence := 1 },
            (pre ++ [c]).map (fun ch => mkVerifPrompt claim (chunkPreview ch)))) ∧
    (∀ (pre : List String) (c : String) (post : List String),
       (∀ c2 ∈ pre, classifyChunk respond claim c2 ≠ some "Supports"
         ∧ classifyChunk respond claim c2 ≠ some "Refutes") →
       classifyChunk respond claim c = some "Refutes" →
       (∀ c2 ∈ post, classifyChunk respond claim c2 ≠ some "Supports") →
       verifyClaim respond claim (pre ++ c :: post)
         = ({ status := "Refutes", chunk_index := (pre.length : Int), confidence := 1/2 },
            (pre ++ c :: post).map (fun ch => mkVerifPrompt claim (chunkPreview ch)))) ∧
    (∀ chunks : List String,
       (∀ c2 ∈ chunks, classifyChunk respond claim c2 ≠ some "Supports"
         ∧ classifyChunk respond claim c2 ≠ some "Refutes") →
       chunks ≠ [] →
       verifyClaim respond claim chunks
         = ({ status := "Not Mentioned", chunk_index := -1, confidence := 1/2 },
            chunks.map (fun ch => mkVerifPrompt claim (chunkPreview ch)))) := by
  refine ⟨?_, ?_, ?_⟩
  · intro pre c post hpre hc
    have hne : (pre ++ c :: post).isEmpty = false := by
      cases pre <;> rfl
    rw [verifyClaim, if_neg (by rw [hne]; exact Bool.false_ne_true)]
    rw [verifyClaimGo_supports respond claim pre c post 0 ("Not Mentioned", -1)
      (by decide) hpre hc]
    simp
  · intro pre c post hpre hc hpost
    have hne : (pre ++ c :: post).isEmpty = false := by
      cases pre <;> rfl
    rw [verifyClaim, if_neg (by rw [hne]; exact Bool.false_ne_true)]
    rw [verifyClaimGo_skip respond claim pre (c :: post) 0 ("Not Mentioned", -1) hpre]
    have hstep : verifyClaimGo respond claim (c :: post) (0 + pre.length)
        ("Not Mentioned", -1)
        = (("Refutes", ((pre.length : Nat) : Int)),
           (c :: post).map (fun ch => mkVerifPrompt claim (chunkPreview ch))) := by
      cases hresp : respond (mkVerifPrompt claim (chunkPreview c)) with
      | none => rw [classifyChunk_none hresp] at hc; exact absurd hc (by simp)
      | some resp =>
        rw [classifyChunk_some hresp] at hc
        cases hs : respSupports resp with
        | true => rw [hs] at hc; simp at hc
        | false =>
          cases hr : respRefutes resp with
          | false => rw [hs, hr] at hc; simp at hc
          | true =>
            rw [verifyClaimGo_cons_refutes post (0 + pre.length) ("Not Mentioned", -1)
              hresp hs hr, if_pos rfl]
            rw [verifyClaimGo_inert respond claim post (0 + pre.length + 1)
              ("Refutes", ((0 + pre.length : Nat) : Int)) (by intro hx; simp at hx)
              (by intro hx; simp at hx) hpost]
            simp
    rw [hstep]
    simp
  · intro chunks hall hne
    have hne2 : chunks.isEmpty = false := by
      cases chunks with
      | nil => exact absurd rfl hne
      | cons a t => rfl
    rw [verifyClaim, if_neg (by rw [hne2]; exact Bool.false_ne_true)]
    have h := verifyClaimGo_skip respond claim chunks [] 0 ("Not Mentioned", -1) hall
    simp only [List.append_nil, verifyClaimGo] at h
    rw [h]
    simp

/-- C10: with an empty chunk list, `verify_claim` returns
("Not Mentioned", -1, confidence 0.0) without invoking the generator (empty
prompt trace); over a non-empty chunk list, every non-Supports result carries
confidence 0.5 instead. -/
theorem verifyClaim_empty_vs_nonempty (respond : String → Option String) (claim : String) :
    verifyClaim respond claim []
      = ({ status := "Not Mentioned", chunk_index := -1, confidence := 0 }, []) ∧
    (∀ chunks : List String, chunks ≠ [] →
       (verifyClaim respond claim chunks).1.status ≠ "Supports" →
       (verifyClaim respond claim chunks).1.confidence = 1/2) := by
  constructor
  · rfl
  · intro chunks hne hstat
    have hne2 : chunks.isEmpty = false := by
      cases chunks with
      | nil => exact absurd rfl hne
      | cons a t => rfl
    rw [verifyClaim, if_neg (by rw [hne2]; exact Bool.false_ne_true)] at hstat ⊢
    simp only at hstat ⊢
    rw [if_neg hstat]

set_option maxRecDepth 4000 in
/-- Witness for C5: three chunks where chunk 2 (index 1) classifies "Supports";
the scan consults exactly chunks 1 and 2 and never sends chunk 3's prompt. -/
theorem verifyClaim_scan_witness :
    verifyClaim
        (fun p => if p = mkVerifPrompt "q" (chunkPreview "c2") then some "Supports"
                  else some "Not Mentioned") "q" (["c1"] ++ "c2" :: ["c3"])
      = ({ status := "Supports", chunk_index := ((["c1"] : List String).length : Int),
           confidence := 1 },
         (["c1"] ++ ["c2"]).map (fun ch => mkVerifPrompt "q" (chunkPreview ch))) :=
  (verifyClaim_scan
      (fun p => if p = mkVerifPrompt "q" (chunkPreview "c2") then some "Supports"
                else some "Not Mentioned") "q").1
    ["c1"] "c2" ["c3"] (by decide) (by decide)

/-- Witness for C10: a failing generator over one chunk yields a non-Supports
result with confidence 0.5. -/
theorem verifyClaim_empty_vs_nonempty_witness :
    (verifyClaim (fun _ => none) "q" ["a"]).1.confidence = 1/2 :=
  (verifyClaim_empty_vs_nonempty (fun _ => none) "q").2 ["a"] (by decide) (by decide)

/-! ## C6: orchestrator recursion bound
(`Orchestrator.answer_iteratively` lines 300-328, `QueryPipeline.answer` lines 452-456)

`QueryPipeline.answer` dispatches on
`use_iterative = _is_complex_query(q) if use_orchestrator is None else use_orchestrator`
and enters the orchestrator only when it is true; the orchestrator answers each
TEXT-typed sub-question by calling `answer(sub_question, ..., use_orchestrator=False)`
and each TABLE-typed one through the table pipeline (which never calls `answer`).
`orchDepth` counts the maximal nesting of orchestrator entries along this call
structure; `fuel` bounds the call-stack depth (any finite execution fits some fuel). -/

structure RoutedQuestion where
  question : String
  qtype : String

/-- The `use_iterative` dispatch of `QueryPipeline.answer` (lines 452-456). -/
def useIterative (isComplexQ : Bool) : Option Bool → Bool
  | none => isComplexQ
  | some b => b

/-- Maximal number of nested orchestrator entries reached when `answer q useOrch`
runs, given the complexity classifier `isC` and the router `route`. -/
def orchDepth (isC : String → Bool) (route : String → List RoutedQuestion) :
    Nat → String → Option Bool → Nat
  | 0, _, _ => 0
  | fuel + 1, q, useOrch =>
    if useIterative (isC q) useOrch then
      1 + ((route q).map (fun rq =>
            if rq.qtype = "TABLE" then 0
            else orchDepth isC route fuel rq.question (some false))).foldr max 0
    else 0

theorem orchDepth_some_false (isC : String → Bool) (route : String → List RoutedQuestion)
    (fuel : Nat) (q : String) : orchDepth isC route fuel q (some false) = 0 := by
  cases fuel with
  | zero => rfl
  | succ fuel => simp [orchDepth, useIterative]

/-- C6: every TEXT sub-question is answered with the orchestrator explicitly
disabled (`use_orchestrator=False`), so a sub-question never re-enters the
orchestrator: the orchestration recursion depth is bounded by 1, for every
complexity classifier, router, question, flag and call-stack bound. -/
theorem orchestration_depth_le_one (isC : String → Bool)
    (route : String → List RoutedQuestion) (fuel : Nat) (q : String)
    (useOrch : Option Bool) : orchDepth isC route fuel q useOrch ≤ 1 := by
  cases fuel with
  | zero => simp [orchDepth]
  | succ fuel =>
    rw [orchDepth]
    by_cases h : useIterative (isC q) useOrch = true
    · rw [if_pos h]
      have hz : ((route q).map (fun rq =>
          if rq.qtype = "TABLE" then 0
          else orchDepth isC route fuel rq.question (some false))).foldr max 0 = 0 := by
        induction route q with
        | nil => rfl
        | cons rq rest ih =>
          simp only [List.map_cons, List.foldr_cons, ih]
          by_cases ht : rq.qtype = "TABLE"
          · simp [ht]
          · simp [ht, orchDepth_some_false]
      rw [hz]
    · rw [if_neg h]
      omega

/-! ## C8: the reranker (`Reranker.rerank` / `Reranker._score_pair`) -/

structure Candidate where
  id : String
  text : String
  score : ℚ
  bm25_score : ℚ
deriving DecidableEq, Inhabited

/-- `set(s.lower().split())`, as a duplicate-free list of words. -/
def termsOf (s : String) : List String :=
  ((splitWords (lowerStr s).data).map (fun w => (⟨w⟩ : String))).dedup

/-- `len(query_terms & doc_terms)` for the deduplicated term lists. -/
def interCount (qt dt : List String) : Nat :=
  (qt.filter (fun t => decide (t ∈ dt))).length

/-- `len(query_terms | doc_terms)` for the deduplicated term lists. -/
def unionCount (qt dt : List String) : Nat :=
  qt.length + (dt.filter (fun t => !(decide (t ∈ qt)))).length

/-- The Jaccard signal of `_score_pair` (lines 41-45). -/
def jaccardScore (query document : String) : ℚ :=
  let qt := termsOf query
  let dt := termsOf document
  if 0 < unionCount qt dt
    then (interCount qt dt : ℚ) / (unionCount qt dt : ℚ) else 0

/-- `Reranker._score_pair` (lines 36-73), with `document = candidate["text"]`. -/
def scorePair (query document : String) (c : Candidate) : ℚ :=
  let jaccard_score := jaccardScore query document
  let phrase_boost : ℚ :=
    if containsStr (lowerStr document) (lowerStr query) then 0.3 else 0
  let normalized_semantic : ℚ :=
    if 0 < c.score then max 0 (min 1 c.score) else 0
  let normalized_bm25 : ℚ :=
    if 0 < c.bm25_score then min 1 (c.bm25_score / 10) else 0
  let final_score :=
    0.4 * normalized_semantic + 0.3 * jaccard_score
      + 0.2 * normalized_bm25 + 0.1 * phrase_boost
  min final_score 1

/-- Stable descending insertion: a later-processed candidate is placed after all
earlier candidates of greater-or-equal score, as Python's stable `sort(reverse=True)`. -/
def insertByScore (f : Candidate → ℚ) (c : Candidate) : List Candidate → List Candidate
  | [] => [c]
  | d :: rest => if f d ≤ f c then c :: d :: rest else d :: insertByScore f c rest

def sortByScoreDesc (f : Candidate → ℚ) : List Candidate → List Candidate
  | [] => []
  | c :: rest => insertByScore f c (sortByScoreDesc f rest)

/-- `Reranker.rerank` (lines 11-34). -/
def rerank (query : String) (candidates : List Candidate) (topK : Nat) : List Candidate :=
  if candidates.isEmpty then []
  else if candidates.length ≤ topK then candidates
  else (sortByScoreDesc (fun c => scorePair query c.text c) candidates).take topK

/-- The composite score exactly as the claim words it:
`0.4*normalized_semantic + 0.3*jaccard + 0.2*min(1, bm25/10) + 0.1*exact_phrase_bonus`
with `normalized_semantic` the clamp of the stored similarity to [0,1] and the
bonus 0.3 exactly on a lowercased-substring match. -/
def claimCompositeScore (query document : String) (c : Candidate) : ℚ :=
  0.4 * (max 0 (min 1 c.score)) + 0.3 * jaccardScore query document
    + 0.2 * (min 1 (c.bm25_score / 10))
    + 0.1 * (if containsStr (lowerStr document) (lowerStr query) then (0.3 : ℚ) else 0)

theorem insertByScore_perm (f : Candidate → ℚ) (c : Candidate) (l : List Candidate) :
    (insertByScore f c l).Perm (c :: l) := by
  induction l with
  | nil => exact List.Perm.refl _
  | cons d rest ih =>
    rw [insertByScore]
    by_cases h : f d ≤ f c
    · rw [if_pos h]
    · rw [if_neg h]
      exact ((ih.cons d).trans (List.Perm.swap c d rest)).symm.symm

theorem sortByScoreDesc_perm (f : Candidate → ℚ) (l : List Candidate) :
    (sortByScoreDesc f l).Perm l := by
  induction l with
  | nil => exact List.Perm.refl _
  | cons c rest ih =>
    exact (insertByScore_perm f c (sortByScoreDesc f rest)).trans (ih.cons c)

theorem insertByScore_sorted (f : Candidate → ℚ) (c : Candidate) (l : List Candidate)
    (hl : l.Pairwise (fun a b => f b ≤ f a)) :
    (insertByScore f c l).Pairwise (fun a b => f b ≤ f a) := by
  induction l with
  | nil => simp [insertByScore]
  | cons d rest ih =>
    rw [insertByScore]
    rcases List.pairwise_cons.mp hl with ⟨hd, hrest⟩
    by_cases h : f d ≤ f c
    · rw [if_pos h]
      refine List.pairwise_cons.mpr ⟨?_, hl⟩
      intro x hx
      rcases List.mem_cons.mp hx with hx | hx
      · subst hx; exact h
      · exact le_trans (hd x hx) h
    · rw [if_neg h]
      refine List.pairwise_cons.mpr ⟨?_, ih hrest⟩
      intro x hx
      have hx2 := (insertByScore_perm f c rest).mem_iff.mp hx
      rcases List.mem_cons.mp hx2 with hx2 | hx2
      · subst hx2; exact le_of_lt (not_le.mp h)
      · exact hd x hx2

theorem sortByScoreDesc_sorted (f : Candidate → ℚ) (l : List Candidate) :
    (sortByScoreDesc f l).Pairwise (fun a b => f b ≤ f a) := by
  induction l with
  | nil => simp [sortByScoreDesc]
  | cons c rest ih => exact insertByScore_sorted f c _ ih

theorem jaccardScore_le_one (query document : String) :
    jaccardScore query document ≤ 1 := by
  rw [jaccardScore]
  by_cases h : 0 < unionCount (termsOf query) (termsOf document)
  · rw [if_pos h]
    rw [div_le_one (by exact_mod_cast h)]
    have hle : interCount (termsOf query) (termsOf document)
        ≤ unionCount (termsOf query) (termsOf document) := by
      have h1 : interCount (termsOf query) (termsOf document)
          ≤ (termsOf query).length := List.length_filter_le _ _
      rw [unionCount]
      omega
    exact_mod_cast hle
  · rw [if_neg h]
    norm_num

/-- C8 (amended): `rerank` returns the candidates as-is when there are at most
`top_k` of them; otherwise it returns `top_k` candidates sorted by descending
composite score, and every returned candidate scores at least as high as every
dropped one. The composite score is the claim formula amended with the source's
positivity guard on the BM25 signal (`min(1, bm25/10)` is applied only for
`bm25_score > 0`; non-positive BM25 contributes 0, not a negative term); the
source's final `min(score, 1.0)` cap never binds since the composite is at most
0.93. -/
theorem rerank_spec (query : String) (candidates : List Candidate) (topK : Nat) :
    (candidates.length ≤ topK → rerank query candidates topK = candidates) ∧
    (topK < candidates.length →
      ∃ rest : List Candidate,
        ((rerank query candidates topK) ++ rest).Perm candidates ∧
        (rerank query candidates topK).length = topK ∧
        (rerank query candidates topK).Pairwise
          (fun a b => scorePair query b.text b ≤ scorePair query a.text a) ∧
        (∀ a ∈ rerank query candidates topK, ∀ b ∈ rest,
          scorePair query b.text b ≤ scorePair query a.text a)) ∧
    (∀ (c : Candidate) (document : String),
      scorePair query document c
        = 0.4 * (max 0 (min 1 c.score)) + 0.3 * jaccardScore query document
          + 0.2 * (if 0 < c.bm25_score then min 1 (c.bm25_score / 10) else 0)
          + 0.1 * (if containsStr (lowerStr document) (lowerStr query)
                   then (0.3 : ℚ) else 0)) := by
  refine ⟨?_, ?_, ?_⟩
  · intro hle
    rw [rerank]
    by_cases hne : candidates.isEmpty
    · rw [if_pos hne]
      cases candidates with
      | nil => rfl
      | cons a t => simp [List.isEmpty] at hne
    · rw [if_neg hne, if_pos hle]
  · intro hlt
    have hne : candidates.isEmpty = false := by
      cases candidates with
      | nil => simp at hlt
      | cons a t => rfl
    have hnle : ¬ candidates.length ≤ topK := by omega
    have hr : rerank query candidates topK
        = (sortByScoreDesc (fun c => scorePair query c.text c) candidates).take topK := by
      rw [rerank, if_neg (by rw [hne]; exact Bool.false_ne_true), if_neg hnle]
    have hperm := sortByScoreDesc_perm (fun c => scorePair query c.text c) candidates
    have hsorted := sortByScoreDesc_sorted (fun c => scorePair query c.text c) candidates
    refine ⟨(sortByScoreDesc (fun c => scorePair query c.text c) candidates).drop topK,
      ?_, ?_, ?_, ?_⟩
    · rw [hr, List.take_append_drop]
      exact hperm
    · rw [hr, List.length_take]
      have hlen := hperm.length_eq
      omega
    · rw [hr]
      exact List.Pairwise.sublist (List.take_sublist _ _) hsorted
    · rw [hr]
      intro a ha b hb
      have hsplit := hsorted
      rw [← List.take_append_drop topK
        (sortByScoreDesc (fun c => scorePair query c.text c) candidates)] at hsplit
      exact (List.pairwise_append.mp hsplit).2.2 a ha b hb
  · intro c document
    simp only [scorePair]
    have hsem : (if 0 < c.score then max 0 (min 1 c.score) else 0)
        = max 0 (min 1 c.score) := by
      by_cases h : 0 < c.score
      · rw [if_pos h]
      · rw [if_neg h]
        push_neg at h
        rw [min_eq_right (le_trans h (by norm_num)), max_eq_left h]
    rw [hsem]
    have hnsle : max 0 (min 1 c.score) ≤ 1 := by
      apply max_le (by norm_num)
      exact min_le_left _ _
    have hjs := jaccardScore_le_one query document
    have hnble : (if 0 < c.bm25_score then min 1 (c.bm25_score / 10) else 0) ≤ 1 := by
      by_cases h : 0 < c.bm25_score
      · rw [if_pos h]
        exact min_le_left _ _
      · rw [if_neg h]
        norm_num
    have hpble : (if containsStr (lowerStr document) (lowerStr query)
        then (0.3 : ℚ) else 0) ≤ 0.3 := by
      by_cases h : containsStr (lowerStr document) (lowerStr query) = true
      · rw [if_pos h]
      · rw [if_neg h]
        norm_num
    apply min_eq_left
    linarith

/-- The two candidates of the C8 counterexample: `A` has semantic similarity 1/2
and BM25 score -100; `B` has all-zero signals. -/
def candA : Candidate := ⟨"A", "", 1/2, -100⟩

def candB : Candidate := ⟨"B", "", 0, 0⟩

theorem jaccardScore_x_empty : jaccardScore "x" "" = 0 := by
  rw [jaccardScore]
  rw [show interCount (termsOf "x") (termsOf "") = 0 from rfl,
    show unionCount (termsOf "x") (termsOf "") = 1 from rfl]
  norm_num

theorem scorePair_candA : scorePair "x" "" candA = 1/5 := by
  simp only [scorePair, candA, jaccardScore_x_empty]
  rw [show containsStr (lowerStr "") (lowerStr "x") = false from rfl]
  norm_num [min_def, max_def]

theorem scorePair_candB : scorePair "x" "" candB = 0 := by
  simp only [scorePair, candB, jaccardScore_x_empty]
  rw [show containsStr (lowerStr "") (lowerStr "x") = false from rfl]
  norm_num [min_def, max_def]

/-- Counterexample to C8 as stated: with `top_k = 1`, the code returns `[A]`
(code composite: A scores 0.2, B scores 0), although by the claim's formula —
which applies `min(1, bm25/10)` to the BM25 score unconditionally — A scores
0.2 + 0.2*min(1, -10) = -1.8 < 0 = B's score, so the top-1 by the claimed
composite would be `[B]`. -/
theorem rerank_formula_counterexample :
    rerank "x" [candA, candB] 1 = [candA] ∧
    claimCompositeScore "x" candA.text candA < claimCompositeScore "x" candB.text candB := by
  constructor
  · rw [rerank, if_neg (by decide), if_neg (by decide)]
    simp only [sortByScoreDesc, insertByScore]
    rw [show candB.text = "" from rfl, show candA.text = "" from rfl,
      scorePair_candA, scorePair_candB]
    rw [if_pos (by norm_num)]
    rfl
  · rw [show candA.text = "" from rfl, show candB.text = "" from rfl]
    simp only [claimCompositeScore, candA, candB, jaccardScore_x_empty]
    rw [show containsStr (lowerStr "") (lowerStr "x") = false from rfl]
    norm_num [min_def, max_def]

/-- Witness for the amended C8: the no-op branch at a concrete input. -/
theorem rerank_spec_witness :
    rerank "x" [candA, candB] 2 = [candA, candB] :=
  (rerank_spec "x" [candA, candB] 2).1 (by decide)

/-! ## C4: reciprocal rank fusion (`QueryPipeline._reciprocal_rank_fusion`)

Python dicts preserve insertion order; `hit_map` and `rrf_scores` are modelled as
association lists, updated in place. Scores are exact rationals. Being a pure
Lean function, the embedding is deterministic by construction. -/

structure RHit where
  id : String
  text : String
deriving DecidableEq, Inhabited

/-- `hit.get("id")` with the falsy fallback `hit.get("text", "")[:100]`. -/
def idKey (h : RHit) : String :=
  if h.id = "" then ⟨h.text.data.take 100⟩ else h.id

/-- `rrf_scores[hit_id] = rrf_scores.get(hit_id, 0.0) + d` on an ordered dict. -/
def bump : List (String × ℚ) → String → ℚ → List (String × ℚ)
  | [], key, d => [(key, d)]
  | (k0, v) :: rest, key, d =>
    if k0 = key then (k0, v + d) :: rest else (k0, v) :: bump rest key d

/-- One scoring loop (`for rank, hit in enumerate(hits, start=1)`). -/
def scorePass (k : Nat) : List RHit → Nat → List (String × ℚ) → List (String × ℚ)
  | [], _, m => m
  | h :: t, rank, m => scorePass k t (rank + 1) (bump m (idKey h) (1 / ((k : ℚ) + rank)))

/-- `hit_map[hit_id] = hit` on an ordered dict (overwrite keeps the position). -/
def setKeyHit : List (String × RHit) → String → RHit → List (String × RHit)
  | [], key, h => [(key, h)]
  | (k0, v) :: rest, key, h =>
    if k0 = key then (k0, h) :: rest else (k0, v) :: setKeyHit rest key h

/-- The semantic loop over `hit_map` (unconditional assignment). -/
def mapPassSem : List RHit → List (String × RHit) → List (String × RHit)
  | [], m => m
  | h :: t, m => mapPassSem t (setKeyHit m (idKey h) h)

/-- The keyword loop over `hit_map` (`if hit_id not in hit_map`). -/
def mapPassKw : List RHit → List (String × RHit) → List (String × RHit)
  | [], m => m
  | h :: t, m =>
    mapPassKw t (if (m.map Prod.fst).contains (idKey h) then m else m ++ [(idKey h, h)])

def rrfScores (sem kw : List RHit) (k : Nat) : List (String × ℚ) :=
  scorePass k kw 1 (scorePass k sem 1 [])

def rrfHitMap (sem kw : List RHit) : List (String × RHit) :=
  mapPassKw kw (mapPassSem sem [])

/-- Stable descending insertion by accumulated score (Python's stable `sorted`
with `reverse=True`). -/
def insertScored (p : String × ℚ) : List (String × ℚ) → List (String × ℚ)
  | [] => [p]
  | q0 :: rest => if q0.2 ≤ p.2 then p :: q0 :: rest else q0 :: insertScored p rest

def sortPairsDesc : List (String × ℚ) → List (String × ℚ)
  | [] => []
  | p :: rest => insertScored p (sortPairsDesc rest)

def lookupScore : List (String × ℚ) → String → Option ℚ
  | [], _ => none
  | (k0, v) :: rest, key => if k0 = key then some v else lookupScore rest key

def lookupHit : List (String × RHit) → String → Option RHit
  | [], _ => none
  | (k0, v) :: rest, key => if k0 = key then some v else lookupHit rest key

/-- `QueryPipeline._reciprocal_rank_fusion` (lines 328-372). -/
def reciprocalRankFusion (sem kw : List RHit) (k : Nat) : List RHit :=
  ((sortPairsDesc (rrfScores sem kw k)).take 25).map
    (fun p => (lookupHit (rrfHitMap sem kw) p.1).getD default)

/-- The 1-indexed ranks at which `key` appears in a hit list (claim's wording). -/
def ranksFrom (key : String) : List RHit → Nat → List Nat
  | [], _ => []
  | h :: t, r =>
    if idKey h = key then r :: ranksFrom key t (r + 1) else ranksFrom key t (r + 1)

/-- The claim's accumulated RRF score of a key: the sum of `1/(k+r)` over its
1-indexed ranks in the two input lists. -/
def specRRFScore (sem kw : List RHit) (k : Nat) (key : String) : ℚ :=
  ((ranksFrom key sem 1).map (fun r => 1 / ((k : ℚ) + r))).sum
    + ((ranksFrom key kw 1).map (fun r => 1 / ((k : ℚ) + r))).sum

/-- The implementation's per-pass contribution, mirroring `scorePass`. -/
def contribFrom (k : Nat) (key : String) : List RHit → Nat → ℚ
  | [], _ => 0
  | h :: t, rank =>
    (if idKey h = key then 1 / ((k : ℚ) + rank) else 0) + contribFrom k key t (rank + 1)

theorem bump_lookup (key key2 : String) (d : ℚ) :
    ∀ m : List (String × ℚ),
      lookupScore (bump m key d) key2
        = if key2 = key then some ((lookupScore m key2).getD 0 + d)
          else lookupScore m key2 := by
  intro m
  induction m with
  | nil =>
    by_cases h : key2 = key
    · subst h
      simp [bump, lookupScore]
    · simp [bump, lookupScore, h, Ne.symm h]
  | cons p rest ih =>
    obtain ⟨k0, v⟩ := p
    by_cases h0 : k0 = key
    · subst h0
      by_cases h2 : key2 = k0
      · subst h2
        simp [bump, lookupScore]
      · simp [bump, lookupScore, h2, Ne.symm h2]
    · by_cases h2 : key2 = k0
      · subst h2
        simp [bump, lookupScore, h0, Ne.symm h0]
      · simp [bump, lookupScore, h0, Ne.symm h0, h2, Ne.symm h2, ih]

theorem bump_keys_mem (key key2 : String) (d : ℚ) :
    ∀ m : List (String × ℚ),
      key2 ∈ (bump m key d).map Prod.fst ↔ key2 ∈ m.map Prod.fst ∨ key2 = key := by
  intro m
  induction m with
  | nil => simp [bump]
  | cons p rest ih =>
    obtain ⟨k0, v⟩ := p
    by_cases h0 : k0 = key
    · subst h0
      rw [show bump ((k0, v) :: rest) k0 d = (k0, v + d) :: rest from by
        rw [bump, if_pos rfl]]
      simp only [List.map_cons, List.mem_cons]
      tauto
    · simp only [bump, if_neg h0, List.map_cons, List.mem_cons, ih]
      tauto

theorem bump_keys_nodup (key : String) (d : ℚ) :
    ∀ m : List (String × ℚ),
      (m.map Prod.fst).Nodup → ((bump m key d).map Prod.fst).Nodup := by
  intro m
  induction m with
  | nil => intro _; simp [bump]
  | cons p rest ih =>
    intro hm
    obtain ⟨k0, v⟩ := p
    simp only [List.map_cons, List.nodup_cons] at hm
    by_cases h0 : k0 = key
    · subst h0
      rw [show bump ((k0, v) :: rest) k0 d = (k0, v + d) :: rest from by
        rw [bump, if_pos rfl]]
      simp only [List.map_cons, List.nodup_cons]
      exact hm
    · simp only [bump, if_neg h0, List.map_cons, List.nodup_cons]
      refine ⟨?_, ih hm.2⟩
      intro hmem
      rw [bump_keys_mem] at hmem
      rcases hmem with hmem | hmem
      · exact hm.1 hmem
      · exact h0 hmem

theorem scorePass_lookup (k : Nat) :
    ∀ (l : List RHit) (rank : Nat) (m : List (String × ℚ)) (key : String),
      (lookupScore (scorePass k l rank m) key).getD 0
        = (lookupScore m key).getD 0 + contribFrom k key l rank := by
  intro l
  induction l with
  | nil => intro rank m key; simp [scorePass, contribFrom]
  | cons h t ih =>
    intro rank m key
    rw [scorePass, ih, contribFrom, bump_lookup]
    by_cases hk : key = idKey h
    · rw [if_pos hk, if_pos (by rw [hk])]
      simp only [Option.getD_some]
      ring
    · rw [if_neg hk, if_neg (fun hh => hk hh.symm)]
      ring

theorem scorePass_keys_mem (k : Nat) :
    ∀ (l : List RHit) (rank : Nat) (m : List (String × ℚ)) (key : String),
      key ∈ (scorePass k l rank m).map Prod.fst
        ↔ key ∈ m.map Prod.fst ∨ key ∈ l.map idKey := by
  intro l
  induction l with
  | nil => intro rank m key; simp [scorePass]
  | cons h t ih =>
    intro rank m key
    rw [scorePass, ih]
    rw [bump_keys_mem]
    simp only [List.map_cons, List.mem_cons]
    tauto

theorem scorePass_keys_nodup (k : Nat) :
    ∀ (l : List RHit) (rank : Nat) (m : List (String × ℚ)),
      (m.map Prod.fst).Nodup → ((scorePass k l rank m).map Prod.fst).Nodup := by
  intro l
  induction l with
  | nil => intro rank m hm; simpa [scorePass] using hm
  | cons h t ih =>
    intro rank m hm
    rw [scorePass]
    exact ih _ _ (bump_keys_nodup (idKey h) _ m hm)

theorem contribFrom_eq_ranks (k : Nat) (key : String) :
    ∀ (l : List RHit) (rank : Nat),
      contribFrom k key l rank
        = ((ranksFrom key l rank).map (fun r => 1 / ((k : ℚ) + r))).sum := by
  intro l
  induction l with
  | nil => intro rank; simp [contribFrom, ranksFrom]
  | cons h t ih =>
    intro rank
    rw [contribFrom, ranksFrom, ih]
    by_cases hk : idKey h = key
    · rw [if_pos hk, if_pos hk]
      simp
    · rw [if_neg hk, if_neg hk]
      simp

/-- Every accumulated score equals the claim's rank-sum formula. -/
theorem rrfScores_eq_spec (sem kw : List RHit) (k : Nat) (key : String) :
    (lookupScore (rrfScores sem kw k) key).getD 0 = specRRFScore sem kw k key := by
  rw [rrfScores, scorePass_lookup, scorePass_lookup, specRRFScore,
    contribFrom_eq_ranks, contribFrom_eq_ranks]
  simp [lookupScore]

theorem rrfScores_keys_nodup (sem kw : List RHit) (k : Nat) :
    ((rrfScores sem kw k).map Prod.fst).Nodup := by
  rw [rrfScores]
  exact scorePass_keys_nodup k kw 1 _ (scorePass_keys_nodup k sem 1 [] (by simp))

theorem rrfScores_keys_mem (sem kw : List RHit) (k : Nat) (key : String) :
    key ∈ (rrfScores sem kw k).map Prod.fst
      ↔ key ∈ sem.map idKey ∨ key ∈ kw.map idKey := by
  rw [rrfScores, scorePass_keys_mem, scorePass_keys_mem]
  simp

theorem lookupScore_of_mem (m : List (String × ℚ)) (hm : (m.map Prod.fst).Nodup) :
    ∀ p ∈ m, lookupScore m p.1 = some p.2 := by
  induction m with
  | nil => intro p hp; simp at hp
  | cons q rest ih =>
    intro p hp
    obtain ⟨k0, v⟩ := q
    simp only [List.map_cons, List.nodup_cons] at hm
    rcases List.mem_cons.mp hp with hp | hp
    · subst hp
      simp [lookupScore]
    · rw [lookupScore]
      by_cases h : k0 = p.1
      · exfalso
        apply hm.1
        rw [h]
        exact List.mem_map_of_mem Prod.fst hp
      · rw [if_neg h]
        exact ih hm.2 p hp

theorem setKeyHit_invariant (m : List (String × RHit)) (h : RHit)
    (hm : ∀ q ∈ m, idKey q.2 = q.1) :
    ∀ q ∈ setKeyHit m (idKey h) h, idKey q.2 = q.1 := by
  induction m with
  | nil =>
    intro q hq
    simp only [setKeyHit, List.mem_singleton] at hq
    subst hq
    rfl
  | cons p rest ih =>
    intro q hq
    obtain ⟨k0, v⟩ := p
    rw [setKeyHit] at hq
    by_cases h0 : k0 = idKey h
    · rw [if_pos h0] at hq
      rcases List.mem_cons.mp hq with hq | hq
      · subst hq; exact h0.symm
      · exact hm q (List.mem_cons_of_mem _ hq)
    · rw [if_neg h0] at hq
      rcases List.mem_cons.mp hq with hq | hq
      · subst hq; exact hm (k0, v) (by simp)
      · exact ih (fun q2 hq2 => hm q2 (List.mem_cons_of_mem _ hq2)) q hq

theorem setKeyHit_keys_mem (m : List (String × RHit)) (key : String) (h : RHit) :
    ∀ key2, key2 ∈ (setKeyHit m key h).map Prod.fst
      ↔ key2 ∈ m.map Prod.fst ∨ key2 = key := by
  induction m with
  | nil => intro key2; simp [setKeyHit]
  | cons p rest ih =>
    intro key2
    obtain ⟨k0, v⟩ := p
    by_cases h0 : k0 = key
    · subst h0
      rw [show setKeyHit ((k0, v) :: rest) k0 h = (k0, h) :: rest from by
        rw [setKeyHit, if_pos rfl]]
      simp only [List.map_cons, List.mem_cons]
      tauto
    · rw [show setKeyHit ((k0, v) :: rest) key h = (k0, v) :: setKeyHit rest key h from by
        rw [setKeyHit, if_neg h0]]
      simp only [List.map_cons, List.mem_cons, ih]
      tauto

theorem mapPassSem_invariant (l : List RHit) :
    ∀ m : List (String × RHit), (∀ q ∈ m, idKey q.2 = q.1) →
      ∀ q ∈ mapPassSem l m, idKey q.2 = q.1 := by
  induction l with
  | nil => intro m hm q hq; exact hm q hq
  | cons h t ih =>
    intro m hm q hq
    rw [mapPassSem] at hq
    exact ih _ (setKeyHit_invariant m h hm) q hq

theorem mapPassSem_keys_mem (l : List RHit) :
    ∀ (m : List (String × RHit)) (key : String),
      key ∈ (mapPassSem l m).map Prod.fst
        ↔ key ∈ m.map Prod.fst ∨ key ∈ l.map idKey := by
  induction l with
  | nil => intro m key; simp [mapPassSem]
  | cons h t ih =>
    intro m key
    rw [mapPassSem, ih, setKeyHit_keys_mem]
    simp only [List.map_cons, List.mem_cons]
    tauto

theorem mapPassKw_invariant (l : List RHit) :
    ∀ m : List (String × RHit), (∀ q ∈ m, idKey q.2 = q.1) →
      ∀ q ∈ mapPassKw l m, idKey q.2 = q.1 := by
  induction l with
  | nil => intro m hm q hq; exact hm q hq
  | cons h t ih =>
    intro m hm q hq
    rw [mapPassKw] at hq
    by_cases hc : ((m.map Prod.fst).contains (idKey h)) = true
    · rw [if_pos hc] at hq
      exact ih m hm q hq
    · rw [if_neg hc] at hq
      refine ih _ ?_ q hq
      intro q2 hq2
      rcases List.mem_append.mp hq2 with hq2 | hq2
      · exact hm q2 hq2
      · rw [List.mem_singleton] at hq2
        subst hq2
        rfl

theorem mapPassKw_keys_mem (l : List RHit) :
    ∀ (m : List (String × RHit)) (key : String),
      key ∈ (mapPassKw l m).map Prod.fst
        ↔ key ∈ m.map Prod.fst ∨ key ∈ l.map idKey := by
  induction l with
  | nil => intro m key; simp [mapPassKw]
  | cons h t ih =>
    intro m key
    rw [mapPassKw]
    by_cases hc : ((m.map Prod.fst).contains (idKey h)) = true
    · rw [if_pos hc, ih]
      simp only [List.map_cons, List.mem_cons]
      constructor
      · rintro (hk | hk)
        · exact Or.inl hk
        · exact Or.inr (Or.inr hk)
      · rintro (hk | hk | hk)
        · exact Or.inl hk
        · subst hk
          exact Or.inl (by simpa using hc)
        · exact Or.inr hk
    · rw [if_neg hc, ih]
      simp only [List.map_append, List.map_cons, List.mem_append, List.mem_cons,
        List.map_nil, List.mem_singleton]
      tauto

theorem rrfHitMap_invariant (sem kw : List RHit) :
    ∀ q ∈ rrfHitMap sem kw, idKey q.2 = q.1 :=
  mapPassKw_invariant kw _ (mapPassSem_invariant sem [] (by simp))

theorem rrfHitMap_keys_mem (sem kw : List RHit) (key : String) :
    key ∈ (rrfHitMap sem kw).map Prod.fst
      ↔ key ∈ sem.map idKey ∨ key ∈ kw.map idKey := by
  rw [rrfHitMap, mapPassKw_keys_mem, mapPassSem_keys_mem]
  simp


theorem lookupHit_mem_keys (m : List (String × RHit)) (key : String)
    (h : key ∈ m.map Prod.fst) : ∃ v, lookupHit m key = some v ∧ (key, v) ∈ m := by
  induction m with
  | nil => simp at h
  | cons p rest ih =>
    obtain ⟨k0, v0⟩ := p
    by_cases h0 : k0 = key
    · subst h0
      exact ⟨v0, by simp [lookupHit], by simp⟩
    · simp only [List.map_cons, List.mem_cons] at h
      rcases h with h | h
      · exact absurd h.symm h0
      · obtain ⟨v, hv, hmem⟩ := ih h
        exact ⟨v, by rw [lookupHit, if_neg h0]; exact hv, List.mem_cons_of_mem _ hmem⟩

theorem insertScored_perm (p : String × ℚ) (l : List (String × ℚ)) :
    (insertScored p l).Perm (p :: l) := by
  induction l with
  | nil => exact List.Perm.refl _
  | cons q rest ih =>
    rw [insertScored]
    by_cases h : q.2 ≤ p.2
    · rw [if_pos h]
    · rw [if_neg h]
      exact ((ih.cons q).trans (List.Perm.swap p q rest)).symm.symm

theorem sortPairsDesc_perm (l : List (String × ℚ)) : (sortPairsDesc l).Perm l := by
  induction l with
  | nil => exact List.Perm.refl _
  | cons p rest ih => exact (insertScored_perm p (sortPairsDesc rest)).trans (ih.cons p)

theorem insertScored_sorted (p : String × ℚ) (l : List (String × ℚ))
    (hl : l.Pairwise (fun a b => b.2 ≤ a.2)) :
    (insertScored p l).Pairwise (fun a b => b.2 ≤ a.2) := by
  induction l with
  | nil => simp [insertScored]
  | cons q rest ih =>
    rw [insertScored]
    rcases List.pairwise_cons.mp hl with ⟨hq, hrest⟩
    by_cases h : q.2 ≤ p.2
    · rw [if_pos h]
      refine List.pairwise_cons.mpr ⟨?_, hl⟩
      intro x hx
      rcases List.mem_cons.mp hx with hx | hx
      · subst hx; exact h
      · exact le_trans (hq x hx) h
    · rw [if_neg h]
      refine List.pairwise_cons.mpr ⟨?_, ih hrest⟩
      intro x hx
      have hx2 := (insertScored_perm p rest).mem_iff.mp hx
      rcases List.mem_cons.mp hx2 with hx2 | hx2
      · subst hx2; exact le_of_lt (not_le.mp h)
      · exact hq x hx2

theorem sortPairsDesc_sorted (l : List (String × ℚ)) :
    (sortPairsDesc l).Pairwise (fun a b => b.2 ≤ a.2) := by
  induction l with
  | nil => simp [sortPairsDesc]
  | cons p rest ih => exact insertScored_sorted p _ ih

theorem rrfFusion_key_eq (sem kw : List RHit) (k : Nat) :
    ∀ p ∈ (sortPairsDesc (rrfScores sem kw k)).take 25,
      idKey ((lookupHit (rrfHitMap sem kw) p.1).getD default) = p.1 := by
  intro p hp
  have hmem : p ∈ rrfScores sem kw k :=
    (sortPairsDesc_perm (rrfScores sem kw k)).mem_iff.mp (List.mem_of_mem_take hp)
  have hkey : p.1 ∈ (rrfScores sem kw k).map Prod.fst := List.mem_map_of_mem Prod.fst hmem
  rw [rrfScores_keys_mem] at hkey
  have hkey2 : p.1 ∈ (rrfHitMap sem kw).map Prod.fst :=
    (rrfHitMap_keys_mem sem kw p.1).mpr hkey
  obtain ⟨v, hv, hvm⟩ := lookupHit_mem_keys _ p.1 hkey2
  rw [hv]
  simp only [Option.getD_some]
  exact rrfHitMap_invariant sem kw (p.1, v) hvm

theorem rrfFusion_map_idKey (sem kw : List RHit) (k : Nat) :
    (reciprocalRankFusion sem kw k).map idKey
      = ((sortPairsDesc (rrfScores sem kw k)).take 25).map Prod.fst := by
  rw [reciprocalRankFusion, List.map_map]
  apply List.map_congr_left
  intro p hp
  exact rrfFusion_key_eq sem kw k p hp

theorem rrfScores_val_eq_spec (sem kw : List RHit) (k : Nat) :
    ∀ p ∈ (sortPairsDesc (rrfScores sem kw k)).take 25,
      specRRFScore sem kw k p.1 = p.2 := by
  intro p hp
  have hmem : p ∈ rrfScores sem kw k :=
    (sortPairsDesc_perm (rrfScores sem kw k)).mem_iff.mp (List.mem_of_mem_take hp)
  rw [← rrfScores_eq_spec,
    lookupScore_of_mem _ (rrfScores_keys_nodup sem kw k) p hmem]
  rfl

/-- C4: `_reciprocal_rank_fusion` (a pure function of its inputs, hence
deterministic) returns hits whose identity keys are pairwise distinct; the
accumulated RRF score of every key is exactly the claim's sum of `1/(k+r)` over
its 1-indexed ranks in the two input lists; the output is sorted by descending
accumulated score and capped at 25 hits (exactly `min(25, number of distinct
keys)`), and whenever there are at most 25 distinct keys, every input hit's key
appears in the output. -/
theorem rrf_fuse_spec (sem kw : List RHit) (k : Nat) :
    ((reciprocalRankFusion sem kw k).map idKey).Nodup ∧
    (∀ key : String,
      (lookupScore (rrfScores sem kw k) key).getD 0 = specRRFScore sem kw k key) ∧
    (reciprocalRankFusion sem kw k).Pairwise (fun h1 h2 =>
      specRRFScore sem kw k (idKey h2) ≤ specRRFScore sem kw k (idKey h1)) ∧
    (reciprocalRankFusion sem kw k).length = min 25 (rrfScores sem kw k).length ∧
    (∀ key : String, key ∈ (rrfScores sem kw k).map Prod.fst
      ↔ key ∈ sem.map idKey ∨ key ∈ kw.map idKey) ∧
    (∀ h : RHit, (h ∈ sem ∨ h ∈ kw) → (rrfScores sem kw k).length ≤ 25 →
      idKey h ∈ (reciprocalRankFusion sem kw k).map idKey) := by
  have hperm := sortPairsDesc_perm (rrfScores sem kw k)
  have hsorted := sortPairsDesc_sorted (rrfScores sem kw k)
  have hnodup := rrfScores_keys_nodup sem kw k
  refine ⟨?_, rrfScores_eq_spec sem kw k, ?_, ?_, rrfScores_keys_mem sem kw k, ?_⟩
  · rw [rrfFusion_map_idKey, List.map_take]
    have h1 : ((sortPairsDesc (rrfScores sem kw k)).map Prod.fst).Nodup :=
      ((hperm.map Prod.fst).nodup_iff).mpr hnodup
    exact List.Nodup.sublist (List.take_sublist _ _) h1
  · rw [reciprocalRankFusion]
    apply List.pairwise_map.mpr
    have hsorted25 : ((sortPairsDesc (rrfScores sem kw k)).take 25).Pairwise
        (fun a b => b.2 ≤ a.2) :=
      List.Pairwise.sublist (List.take_sublist _ _) hsorted
    refine List.Pairwise.imp_of_mem ?_ hsorted25
    intro a b ha hb hr
    rw [rrfFusion_key_eq sem kw k a ha, rrfFusion_key_eq sem kw k b hb,
      rrfScores_val_eq_spec sem kw k a ha, rrfScores_val_eq_spec sem kw k b hb]
    exact hr
  · rw [reciprocalRankFusion, List.length_map, List.length_take, hperm.length_eq]
  · intro h hin hle
    have hkeymem : idKey h ∈ (rrfScores sem kw k).map Prod.fst := by
      rw [rrfScores_keys_mem]
      rcases hin with hin | hin
      · exact Or.inl (List.mem_map_of_mem idKey hin)
      · exact Or.inr (List.mem_map_of_mem idKey hin)
    rw [rrfFusion_map_idKey]
    have hlen : (sortPairsDesc (rrfScores sem kw k)).length ≤ 25 := by
      rw [hperm.length_eq]
      exact hle
    rw [List.take_of_length_le hlen]
    exact ((hperm.map Prod.fst).mem_iff).mpr hkeymem

/-- Witness for C4 at a concrete input: one semantic hit and one keyword hit with
distinct ids; both keys appear in the fused output. -/
theorem rrf_fuse_spec_witness :
    idKey (⟨"h1", "ta"⟩ : RHit)
      ∈ (reciprocalRankFusion [⟨"h1", "ta"⟩] [⟨"h2", "tb"⟩] 60).map idKey :=
  (rrf_fuse_spec [⟨"h1", "ta"⟩] [⟨"h2", "tb"⟩] 60).2.2.2.2.2
    ⟨"h1", "ta"⟩ (Or.inl (by decide)) (by decide)

/-! ## C3: generator output cleaning (`GeneratorClient.clean_output`)

`clean_output` is a fixed sequence of `re.sub`/`re.split` passes. Each regex is
hand-compiled to a parser on `List Char` returning the unconsumed rest; since no
pattern can match the empty string, every match consumes at least one character.
`reSubAll` mirrors `re.sub`: scan left to right, replace each non-overlapping
match (the replacement is not rescanned), continue after the match.
`\s`/`\d`/`\w` are the ASCII classes; `re.IGNORECASE` is ASCII case folding. -/

/-- Parsers on character lists: return the rest after the match, `none` on failure. -/
abbrev P := List Char → Option (List Char)

def pChar (c : Char) : P := fun s =>
  match s with
  | [] => none
  | d :: ds => if d = c then some ds else none

/-- Case-insensitive literal. -/
def pLitCI : List Char → P
  | [], s => some s
  | _ :: _, [] => none
  | c :: cs, d :: ds => if lowerChar d = lowerChar c then pLitCI cs ds else none

/-- `X+` for a character class (greedy; exact for the classes used here, which
are disjoint from what follows them). -/
def pRun1 (p : Char → Bool) : P := fun s =>
  match s with
  | [] => none
  | c :: cs => if p c then some (cs.dropWhile p) else none

/-- `X*` for a character class (greedy). -/
def pRun0 (p : Char → Bool) : P := fun s => some (s.dropWhile p)

/-- Ordered alternation (first match wins, as in a regex alternation of
distinct literals). -/
def pAlt (a b : P) : P := fun s =>
  match a s with
  | some r => some r
  | none => b s

def pAnyCI : List (List Char) → P
  | [] => fun _ => none
  | l :: ls => pAlt (pLitCI l) (pAnyCI ls)

/-- Greedy `(...)*` over a group that always consumes (fuelled). -/
def pStarF (q : P) : Nat → P
  | 0 => fun s => some s
  | fuel + 1 => fun s =>
    match q s with
    | none => some s
    | some r => if r.length < s.length then pStarF q fuel r else some s

def pStar (q : P) : P := fun s => pStarF q s.length s

/-- Greedy `(...){2,}`. -/
def pRep2 (g : P) : P := fun s => do
  let s1 ← g s
  let s2 ← g s1
  pStar g s2

/-- Lazy `.*?T` (DOTALL): consume up to and including the earliest match of `T`. -/
def scanTo (t : P) : List Char → Option (List Char)
  | [] => t []
  | c :: cs =>
    match t (c :: cs) with
    | some r => some r
    | none => scanTo t cs

/-- `\Z`: succeeds only at the end of the string. -/
def pEndOfStr : P := fun s => if s.isEmpty then some [] else none

/-- A substitution matcher: match length at this position plus replacement text. -/
abbrev M := List Char → Option (Nat × List Char)

def toM (p : P) (repl : List Char) : M := fun s =>
  (p s).map (fun r => (s.length - r.length, repl))

/-- `re.sub` engine: scan left to right, splice in replacements, continue after
each match (fuelled; fuel = input length suffices as every step consumes). -/
def substF (m : M) : Nat → List Char → List Char
  | 0, s => s
  | _ + 1, [] => []
  | fuel + 1, c :: cs =>
    match m (c :: cs) with
    | some (n, repl) => repl ++ substF m fuel ((c :: cs).drop (max n 1))
    | none => c :: substF m fuel cs

def reSubAll (m : M) (s : List Char) : List Char := substF m s.length s

/-- `re.sub` engine tracking the previous character of the original string
(for `\b`). -/
def substBF (m : Option Char → M) : Nat → Option Char → List Char → List Char
  | 0, _, s => s
  | _ + 1, _, [] => []
  | fuel + 1, prev, c :: cs =>
    match m prev (c :: cs) with
    | some (n, repl) =>
      repl ++ substBF m fuel (((c :: cs).take (max n 1)).getLast?)
        ((c :: cs).drop (max n 1))
    | none => c :: substBF m fuel (some c) cs

def reSubAllB (m : Option Char → M) (s : List Char) : List Char :=
  substBF m s.length none s

/-- `re.sub` engine for `re.MULTILINE` patterns anchored with `^`: the matcher
is only tried at the start of the string or right after a newline. -/
def substLSF (m : M) : Nat → Bool → List Char → List Char
  | 0, _, s => s
  | _ + 1, _, [] => []
  | fuel + 1, atLS, c :: cs =>
    match (if atLS then m (c :: cs) else none) with
    | some (n, repl) =>
      repl ++ substLSF m fuel
        ((((c :: cs).take (max n 1)).getLast?).any (fun ch => ch = '\n'))
        ((c :: cs).drop (max n 1))
    | none => c :: substLSF m fuel (c = '\n') cs

def reSubAllLS (m : M) (s : List Char) : List Char := substLSF m s.length true s

def isWordChar (c : Char) : Bool := c.isAlphanum || c = '_'

/-- `\s*$` under `MULTILINE` after greedy backtracking: consume the whitespace
run up to the end of the string, or up to (excluding) the last newline of the
run when more text follows; fail if neither position is a line end. -/
def tailFromLastNl : List Char → Option (List Char)
  | [] => none
  | c :: cs =>
    match tailFromLastNl cs with
    | some t => some t
    | none => if c = '\n' then some (c :: cs) else none

def wsThenLineEnd : P := fun s =>
  let w := s.takeWhile isWs
  let rest := s.drop w.length
  if rest.isEmpty then some []
  else
    match tailFromLastNl w with
    | some wsuffix => some (wsuffix ++ rest)
    | none => none

/-- `\[Source\s+\d+\]` -/
def pSourceBr : P := fun s => do
  let s ← pChar '[' s
  let s ← pLitCI "Source".data s
  let s ← pRun1 isWs s
  let s ← pRun1 Char.isDigit s
  pChar ']' s

/-- `\[Table\s+Data\]` -/
def pTableBr : P := fun s => do
  let s ← pChar '[' s
  let s ← pLitCI "Table".data s
  let s ← pRun1 isWs s
  let s ← pLitCI "Data".data s
  pChar ']' s

/-- `,\s*<name>\s+\d+` (the starred group of the parenthesised citations). -/
def pMoreCI (name : List Char) : P := fun s => do
  let s ← pChar ',' s
  let s ← pRun0 isWs s
  let s ← pLitCI name s
  let s ← pRun1 isWs s
  pRun1 Char.isDigit s

/-- `\(<name>\s+\d+(?:,\s*<name>\s+\d+)*\)` -/
def pParenCites (name : List Char) : P := fun s => do
  let s ← pChar '(' s
  let s ← pLitCI name s
  let s ← pRun1 isWs s
  let s ← pRun1 Char.isDigit s
  let s ← pStar (pMoreCI name) s
  pChar ')' s

/-- `\[<name>\s+\d+\]` -/
def pNameBr (name : List Char) : P := fun s => do
  let s ← pChar '[' s
  let s ← pLitCI name s
  let s ← pRun1 isWs s
  let s ← pRun1 Char.isDigit s
  pChar ']' s

/-- `\bEvidence\s+\d+\b` with the word boundaries checked against the previous
original character and the character following the match. -/
def mEvidenceWord (prev : Option Char) : M := fun s =>
  if (match prev with | none => true | some pc => !isWordChar pc) then
    ((do
      let s1 ← pLitCI "Evidence".data s
      let s2 ← pRun1 isWs s1
      let s3 ← pRun1 Char.isDigit s2
      match s3.head? with
      | none => some s3
      | some nc => if isWordChar nc then none else some s3 : Option (List Char))).map
      (fun r => (s.length - r.length, ([] : List Char)))
  else none

/-- One match of the split pattern `Answer:\s*`. -/
def pAnswerLabel : P := fun s => do
  let s ← pLitCI "Answer:".data s
  pRun0 isWs s

/-- The text after the last occurrence of `Answer:\s*` (None when no match),
i.e. `re.split(r"Answer:\s*", s)[-1]` when the split produced > 1 part. -/
def lastAnswerTailF : Nat → List Char → Option (List Char)
  | 0, _ => none
  | _ + 1, [] => none
  | fuel + 1, c :: cs =>
    match pAnswerLabel (c :: cs) with
    | some rest => some ((lastAnswerTailF fuel rest).getD rest)
    | none => lastAnswerTailF fuel cs

/-- `re.split(r"Source:\s*|Question:\s*|Context:\s*", s)[0]`. -/
def cutAtFirstCI (keys : List (List Char)) : List Char → List Char
  | [] => []
  | c :: cs =>
    if keys.any (fun k2 => (pLitCI k2 (c :: cs)).isSome) then []
    else c :: cutAtFirstCI keys cs

/-- The `Answer:` extraction step (generator.py lines 100-109). -/
def answerSplitPass (s : List Char) : List Char :=
  match lastAnswerTailF s.length s with
  | none => s
  | some tail => cutAtFirstCI ["Source:".data, "Question:".data, "Context:".data] tail

/-- `^Source:\s*Context\s*$` (MULTILINE) -/
def pSourceContextLine : P := fun s => do
  let s ← pLitCI "Source:".data s
  let s ← pRun0 isWs s
  let s ← pLitCI "Context".data s
  wsThenLineEnd s

/-- `Source:\s*Context\s*` -/
def pSourceContext : P := fun s => do
  let s ← pLitCI "Source:".data s
  let s ← pRun0 isWs s
  let s ← pLitCI "Context".data s
  pRun0 isWs s

/-- `\n\s*Sources?\s*:.*$` (MULTILINE|DOTALL): from the newline to the end of
the whole string. -/
def pSourcesSection : P := fun s => do
  let s1 ← pChar '\n' s
  let s2 ← pRun0 isWs s1
  let s3 ← pLitCI "Source".data s2
  let _ ← pAlt
    (fun t => do
      let t1 ← pLitCI "s".data t
      let t2 ← pRun0 isWs t1
      pChar ':' t2)
    (fun t => do
      let t1 ← pRun0 isWs t
      pChar ':' t1) s3
  pure ([] : List Char)

/-- `(?:\n\n|\Z)` reached lazily (`.*?`, DOTALL). -/
def toDblNl : P := scanTo (pAlt (fun t => do
  let t1 ← pChar '\n' t
  pChar '\n' t1) pEndOfStr)

/-- `This\s+(?:synthesized\s+)?answer\s+(?:integrates|includes|provides|addresses).*?(?:\n\n|\Z)` -/
def pMetaThisSynth : P := fun s => do
  let s ← pLitCI "This".data s
  let s ← pRun1 isWs s
  let s ← pAlt (fun t => do
    let t1 ← pLitCI "synthesized".data t
    let t2 ← pRun1 isWs t1
    pLitCI "answer".data t2) (pLitCI "answer".data) s
  let s ← pRun1 isWs s
  let s ← pAnyCI ["integrates".data, "includes".data, "provides".data, "addresses".data] s
  toDblNl s

/-- `This\s+(?:response|answer)\s+(?:integrates|includes|provides|addresses).*?(?:\n\n|\Z)` -/
def pMetaThisResp : P := fun s => do
  let s ← pLitCI "This".data s
  let s ← pRun1 isWs s
  let s ← pAnyCI ["response".data, "answer".data] s
  let s ← pRun1 isWs s
  let s ← pAnyCI ["integrates".data, "includes".data, "provides".data, "addresses".data] s
  toDblNl s

/-- `The\s+(?:above\s+)?answer\s+(?:integrates|includes|provides|addresses).*?(?:\n\n|\Z)` -/
def pMetaTheAbove : P := fun s => do
  let s ← pLitCI "The".data s
  let s ← pRun1 isWs s
  let s ← pAlt (fun t => do
    let t1 ← pLitCI "above".data t
    let t2 ← pRun1 isWs t1
    pLitCI "answer".data t2) (pLitCI "answer".data) s
  let s ← pRun1 isWs s
  let s ← pAnyCI ["integrates".data, "includes".data, "provides".data, "addresses".data] s
  toDblNl s

/-- `Note:\s*This\s+answer.*?(?:\n\n|\Z)` -/
def pMetaNote : P := fun s => do
  let s ← pLitCI "Note:".data s
  let s ← pRun0 isWs s
  let s ← pLitCI "This".data s
  let s ← pRun1 isWs s
  let s ← pLitCI "answer".data s
  toDblNl s

/-- `In\s+summary,\s*this\s+answer.*?(?:\n\n|\Z)` -/
def pMetaInSummary : P := fun s => do
  let s ← pLitCI "In".data s
  let s ← pRun1 isWs s
  let s ← pLitCI "summary,".data s
  let s ← pRun0 isWs s
  let s ← pLitCI "this".data s
  let s ← pRun1 isWs s
  let s ← pLitCI "answer".data s
  toDblNl s

/-- The big paragraph pattern of generator.py lines 137-142 (replacement
`"\n\n"`): `\n\n(?:This|The|Note:|In summary,)` then four lazy scans. -/
def pMetaPara : P := fun s => do
  let s ← pChar '\n' s
  let s ← pChar '\n' s
  let s ← pAnyCI ["This".data, "The".data, "Note:".data, "In summary,".data] s
  let s ← scanTo (pAnyCI ["integrates".data, "includes".data, "provides".data,
    "addresses".data, "combines".data, "synthesizes".data]) s
  let s ← scanTo (pAnyCI ["information".data, "evidence".data, "sources".data,
    "data".data, "findings".data]) s
  let s ← scanTo (pAnyCI ["all aspects".data, "comprehensive".data, "detailed".data,
    "thorough".data, "complete".data]) s
  scanTo (fun t => do
    let t1 ← pChar '\n' t
    pChar '\n' t1) s

/-- `Question:\s*.*` (DOTALL): from the first `Question:` to the end. -/
def pQuestionSection : P := fun s => do
  let _ ← pLitCI "Question:".data s
  pure ([] : List Char)

/-- `^Context:\s*$` (MULTILINE) -/
def pContextLine : P := fun s => do
  let s ← pLitCI "Context:".data s
  wsThenLineEnd s

/-- `Provide a concise, complete answer and cite sources succinctly\.\s*` -/
def pInstruction : P := fun s => do
  let s ← pLitCI "Provide a concise, complete answer and cite sources succinctly.".data s
  pRun0 isWs s

/-- `You are a helpful assistant.*?say you don\x27t know\.\s*` (DOTALL) -/
def pSystemPrompt : P := fun s => do
  let s ← pLitCI "You are a helpful assistant".data s
  let s ← scanTo (pLitCI "say you don\x27t know.".data) s
  pRun0 isWs s

/-- `(Answer:.*?Source:\s*Context\s*){2,}` (DOTALL) -/
def pRepeatedEcho : P :=
  pRep2 (fun s => do
    let s ← pLitCI "Answer:".data s
    scanTo pSourceContext s)

/-- `\n{3,}` replaced by `"\n\n"`. -/
def mNewlines : M := fun s =>
  match s with
  | '\n' :: '\n' :: '\n' :: rest =>
    some (3 + (rest.takeWhile (fun ch => ch = '\n')).length, "\n\n".data)
  | _ => none

/-- `GeneratorClient.clean_output` (generator.py lines 73-185): the passes in
source order, then `str.strip()`. -/
def cleanData (x : List Char) : List Char :=
  let c := x
  let c := reSubAll (toM pSourceBr []) c
  let c := reSubAll (toM pTableBr []) c
  let c := reSubAll (toM (pParenCites "Source".data) []) c
  let c := reSubAll (toM (pParenCites "Evidence".data) []) c
  let c := reSubAll (toM (pNameBr "Evidence".data) []) c
  let c := reSubAllB mEvidenceWord c
  let c := reSubAll (toM (pParenCites "Part".data) []) c
  let c := reSubAll (toM (pNameBr "Part".data) []) c
  let c := answerSplitPass c
  let c := reSubAllLS (toM pSourceContextLine []) c
  let c := reSubAll (toM pSourceContext []) c
  let c := reSubAll (toM pSourcesSection []) c
  let c := reSubAll (toM pMetaThisSynth []) c
  let c := reSubAll (toM pMetaThisResp []) c
  let c := reSubAll (toM pMetaTheAbove []) c
  let c := reSubAll (toM pMetaNote []) c
  let c := reSubAll (toM pMetaInSummary []) c
  let c := reSubAll (toM pMetaPara "\n\n".data) c
  let c := reSubAll (toM pQuestionSection []) c
  let c := reSubAllLS (toM pContextLine []) c
  let c := reSubAll (toM pInstruction []) c
  let c := reSubAll (toM pSystemPrompt []) c
  let c := reSubAll (toM pRepeatedEcho []) c
  let c := reSubAll mNewlines c
  stripL c

def clean_output (s : String) : String := ⟨cleanData s.data⟩

/-! ### C3 proof layer: when no artifact keyword occurs, every pass is the identity -/

/-- Case-insensitive substring occurrence. -/
def containsCI (key s : List Char) : Bool := containsL (lowerL key) (lowerL s)

theorem bindO_some {α β : Type} {o : Option α} {f : α → Option β} {b : β}
    (h : (o >>= f) = some b) : ∃ a, o = some a ∧ f a = some b := by
  cases o with
  | none => simp at h
  | some a => exact ⟨a, rfl, by simpa using h⟩

theorem pChar_suffix {c : Char} {s r : List Char} (h : pChar c s = some r) : r <:+ s := by
  cases s with
  | nil => simp [pChar] at h
  | cons d ds =>
    rw [pChar] at h
    by_cases hd : d = c
    · rw [if_pos hd, Option.some.injEq] at h
      subst h
      exact List.suffix_cons d ds
    · rw [if_neg hd] at h
      simp at h

theorem pLitCI_suffix : ∀ (lit s r : List Char), pLitCI lit s = some r → r <:+ s := by
  intro lit
  induction lit with
  | nil =>
    intro s r h
    rw [pLitCI, Option.some.injEq] at h
    subst h
    exact List.suffix_refl s
  | cons c cs ih =>
    intro s r h
    cases s with
    | nil => simp [pLitCI] at h
    | cons d ds =>
      rw [pLitCI] at h
      by_cases hd : lowerChar d = lowerChar c
      · rw [if_pos hd] at h
        exact (ih ds r h).trans (List.suffix_cons d ds)
      · rw [if_neg hd] at h
        simp at h

theorem pRun1_suffix {p : Char → Bool} {s r : List Char} (h : pRun1 p s = some r) :
    r <:+ s := by
  cases s with
  | nil => simp [pRun1] at h
  | cons c cs =>
    rw [pRun1] at h
    by_cases hc : p c = true
    · rw [if_pos hc, Option.some.injEq] at h
      subst h
      exact (List.dropWhile_suffix p).trans (List.suffix_cons c cs)
    · rw [if_neg hc] at h
      simp at h

theorem pRun0_suffix {p : Char → Bool} {s r : List Char} (h : pRun0 p s = some r) :
    r <:+ s := by
  rw [pRun0, Option.some.injEq] at h
  subst h
  exact List.dropWhile_suffix p

theorem pLitCI_lower_eq : ∀ (lit s r : List Char), pLitCI lit s = some r →
    ∃ t, lowerL s = lowerL lit ++ t := by
  intro lit
  induction lit with
  | nil => intro s r _; exact ⟨lowerL s, by simp [lowerL]⟩
  | cons c cs ih =>
    intro s r h
    cases s with
    | nil => simp [pLitCI] at h
    | cons d ds =>
      rw [pLitCI] at h
      by_cases hd : lowerChar d = lowerChar c
      · rw [if_pos hd] at h
        obtain ⟨t, ht⟩ := ih ds r h
        exact ⟨t, by
          simp only [lowerL, List.map_cons] at ht ⊢
          rw [ht, hd]
          simp⟩
      · rw [if_neg hd] at h
        simp at h

theorem containsCI_of_infix {key t s : List Char} (hts : t <:+: s)
    (h : containsCI key t = true) : containsCI key s = true := by
  rw [containsCI, containsL_iff] at h ⊢
  obtain ⟨pre, post, hpp⟩ := h
  obtain ⟨u, v, huv⟩ := hts
  refine ⟨lowerL u ++ pre, post ++ lowerL v, ?_⟩
  have : lowerL s = lowerL u ++ lowerL t ++ lowerL v := by
    rw [← huv]
    simp [lowerL]
  rw [this, hpp]
  simp

theorem pLitCI_contains {lit s r : List Char} (h : pLitCI lit s = some r) :
    containsCI lit s = true := by
  obtain ⟨t, ht⟩ := pLitCI_lower_eq lit s r h
  rw [containsCI, containsL_iff]
  exact ⟨[], t, by simpa using ht⟩

theorem contains_at_suffix {lit t s r : List Char} (hts : t <:+ s)
    (h : pLitCI lit t = some r) : containsCI lit s = true :=
  containsCI_of_infix hts.isInfix (pLitCI_contains h)

theorem pAnyCI_contains : ∀ (lits : List (List Char)) (s r : List Char),
    pAnyCI lits s = some r → ∃ lit ∈ lits, containsCI lit s = true := by
  intro lits
  induction lits with
  | nil => intro s r h; simp [pAnyCI] at h
  | cons l ls ih =>
    intro s r h
    rw [pAnyCI, pAlt] at h
    cases hl : pLitCI l s with
    | some r2 => exact ⟨l, by simp, pLitCI_contains hl⟩
    | none =>
      rw [hl] at h
      obtain ⟨lit, hmem, hc⟩ := ih s r h
      exact ⟨lit, by simp [hmem], hc⟩

theorem substF_id (m : M) : ∀ (fuel : Nat) (s : List Char),
    (∀ t, t <:+ s → m t = none) → substF m fuel s = s := by
  intro fuel
  induction fuel with
  | zero => intro s _; rfl
  | succ fuel ih =>
    intro s hs
    cases s with
    | nil => rfl
    | cons c cs =>
      rw [substF, hs (c :: cs) (List.suffix_refl _)]
      rw [ih cs (fun t ht => hs t (ht.trans (List.suffix_cons c cs)))]

theorem reSubAll_id (m : M) (s : List Char) (h : ∀ t, t <:+ s → m t = none) :
    reSubAll m s = s :=
  substF_id m s.length s h

theorem substBF_id (m : Option Char → M) : ∀ (fuel : Nat) (prev : Option Char)
    (s : List Char), (∀ p t, t <:+ s → m p t = none) → substBF m fuel prev s = s := by
  intro fuel
  induction fuel with
  | zero => intro prev s _; rfl
  | succ fuel ih =>
    intro prev s hs
    cases s with
    | nil => rfl
    | cons c cs =>
      rw [substBF, hs prev (c :: cs) (List.suffix_refl _)]
      rw [ih (some c) cs (fun p t ht => hs p t (ht.trans (List.suffix_cons c cs)))]

theorem substLSF_id (m : M) : ∀ (fuel : Nat) (atLS : Bool) (s : List Char),
    (∀ t, t <:+ s → m t = none) → substLSF m fuel atLS s = s := by
  intro fuel
  induction fuel with
  | zero => intro atLS s _; rfl
  | succ fuel ih =>
    intro atLS s hs
    cases s with
    | nil => rfl
    | cons c cs =>
      rw [substLSF]
      have hnone : (if atLS then m (c :: cs) else none) = none := by
        cases atLS with
        | false => rfl
        | true => simpa using hs (c :: cs) (List.suffix_refl _)
      rw [hnone]
      rw [ih (c = '\n') cs (fun t ht => hs t (ht.trans (List.suffix_cons c cs)))]

theorem toM_some {p : P} {repl s : List Char} {pr : Nat × List Char}
    (h : toM p repl s = some pr) : ∃ r, p s = some r := by
  rw [toM] at h
  obtain ⟨r, hr, _⟩ := Option.map_eq_some'.mp h
  exact ⟨r, hr⟩

/-- Identity of a `toM`-based pass when the pass's key literal does not occur. -/
theorem reSubAll_toM_id (p : P) (repl key : List Char)
    (hreq : ∀ s r, p s = some r → containsCI key s = true)
    (x : List Char) (hx : containsCI key x = false) : reSubAll (toM p repl) x = x := by
  apply reSubAll_id
  intro t ht
  cases hm : toM p repl t with
  | none => rfl
  | some pr =>
    obtain ⟨r, hr⟩ := toM_some hm
    have := containsCI_of_infix ht.isInfix (hreq t r hr)
    rw [hx] at this
    exact absurd this (by simp)

theorem reSubAll_m_id (m : M) (key : List Char)
    (hreq : ∀ s pr, m s = some pr → containsCI key s = true)
    (x : List Char) (hx : containsCI key x = false) : reSubAll m x = x := by
  apply reSubAll_id
  intro t ht
  cases hm : m t with
  | none => rfl
  | some pr =>
    have := containsCI_of_infix ht.isInfix (hreq t pr hm)
    rw [hx] at this
    exact absurd this (by simp)

theorem reSubAllLS_toM_id (p : P) (repl key : List Char)
    (hreq : ∀ s r, p s = some r → containsCI key s = true)
    (x : List Char) (hx : containsCI key x = false) : reSubAllLS (toM p repl) x = x := by
  apply substLSF_id
  intro t ht
  cases hm : toM p repl t with
  | none => rfl
  | some pr =>
    obtain ⟨r, hr⟩ := toM_some hm
    have := containsCI_of_infix ht.isInfix (hreq t r hr)
    rw [hx] at this
    exact absurd this (by simp)

theorem reSubAllB_id (m : Option Char → M) (key : List Char)
    (hreq : ∀ p s pr, m p s = some pr → containsCI key s = true)
    (x : List Char) (hx : containsCI key x = false) : reSubAllB m x = x := by
  apply substBF_id
  intro p t ht
  cases hm : m p t with
  | none => rfl
  | some pr =>
    have := containsCI_of_infix ht.isInfix (hreq p t pr hm)
    rw [hx] at this
    exact absurd this (by simp)

/-- Identity of the `pMetaPara` pass, whose head is an alternation of keys. -/
theorem reSubAll_keys_id (p : P) (repl : List Char) (keys : List (List Char))
    (hreq : ∀ s r, p s = some r → ∃ key ∈ keys, containsCI key s = true)
    (x : List Char) (hx : ∀ key ∈ keys, containsCI key x = false) :
    reSubAll (toM p repl) x = x := by
  apply reSubAll_id
  intro t ht
  cases hm : toM p repl t with
  | none => rfl
  | some pr =>
    obtain ⟨r, hr⟩ := toM_some hm
    obtain ⟨key, hmem, hc⟩ := hreq t r hr
    have := containsCI_of_infix ht.isInfix hc
    rw [hx key hmem] at this
    exact absurd this (by simp)

theorem pSourceBr_contains (s r : List Char) (h : pSourceBr s = some r) :
    containsCI "Source".data s = true := by
  simp only [pSourceBr] at h
  obtain ⟨s1, h1, h⟩ := bindO_some h
  obtain ⟨s2, h2, h⟩ := bindO_some h
  exact contains_at_suffix (pChar_suffix h1) h2

theorem pTableBr_contains (s r : List Char) (h : pTableBr s = some r) :
    containsCI "Table".data s = true := by
  simp only [pTableBr] at h
  obtain ⟨s1, h1, h⟩ := bindO_some h
  obtain ⟨s2, h2, h⟩ := bindO_some h
  exact contains_at_suffix (pChar_suffix h1) h2

theorem pParenCites_contains (name s r : List Char) (h : pParenCites name s = some r) :
    containsCI name s = true := by
  simp only [pParenCites] at h
  obtain ⟨s1, h1, h⟩ := bindO_some h
  obtain ⟨s2, h2, h⟩ := bindO_some h
  exact contains_at_suffix (pChar_suffix h1) h2

theorem pNameBr_contains (name s r : List Char) (h : pNameBr name s = some r) :
    containsCI name s = true := by
  simp only [pNameBr] at h
  obtain ⟨s1, h1, h⟩ := bindO_some h
  obtain ⟨s2, h2, h⟩ := bindO_some h
  exact contains_at_suffix (pChar_suffix h1) h2

theorem mEvidenceWord_contains (p : Option Char) (s : List Char) (pr : Nat × List Char)
    (h : mEvidenceWord p s = some pr) : containsCI "Evidence".data s = true := by
  simp only [mEvidenceWord] at h
  have hmap : ∀ (o : Option (List Char)),
      Option.map (fun r : List Char => (s.length - r.length, ([] : List Char))) o = some pr →
      ∃ r, o = some r := by
    intro o ho
    obtain ⟨r, hr, _⟩ := Option.map_eq_some'.mp ho
    exact ⟨r, hr⟩
  cases p with
  | none =>
    dsimp only at h
    rw [if_pos rfl] at h
    obtain ⟨r, hr⟩ := hmap _ h
    obtain ⟨s1, h1, _⟩ := bindO_some hr
    exact pLitCI_contains h1
  | some pc =>
    dsimp only at h
    cases hw : isWordChar pc with
    | true =>
      rw [hw] at h
      simp at h
    | false =>
      rw [hw] at h
      rw [if_pos (by simp)] at h
      obtain ⟨r, hr⟩ := hmap _ h
      obtain ⟨s1, h1, _⟩ := bindO_some hr
      exact pLitCI_contains h1

theorem pAnswerLabel_contains (s r : List Char) (h : pAnswerLabel s = some r) :
    containsCI "Answer:".data s = true := by
  simp only [pAnswerLabel] at h
  obtain ⟨s1, h1, _⟩ := bindO_some h
  exact pLitCI_contains h1

theorem pSourceContextLine_contains (s r : List Char)
    (h : pSourceContextLine s = some r) : containsCI "Source:".data s = true := by
  simp only [pSourceContextLine] at h
  obtain ⟨s1, h1, _⟩ := bindO_some h
  exact pLitCI_contains h1

theorem pSourceContext_contains (s r : List Char) (h : pSourceContext s = some r) :
    containsCI "Source:".data s = true := by
  simp only [pSourceContext] at h
  obtain ⟨s1, h1, _⟩ := bindO_some h
  exact pLitCI_contains h1

theorem pSourcesSection_contains (s r : List Char) (h : pSourcesSection s = some r) :
    containsCI "Source".data s = true := by
  simp only [pSourcesSection] at h
  obtain ⟨s1, h1, h⟩ := bindO_some h
  obtain ⟨s2, h2, h⟩ := bindO_some h
  obtain ⟨s3, h3, _⟩ := bindO_some h
  exact contains_at_suffix ((pRun0_suffix h2).trans (pChar_suffix h1)) h3

theorem pMetaThisSynth_contains (s r : List Char) (h : pMetaThisSynth s = some r) :
    containsCI "This".data s = true := by
  simp only [pMetaThisSynth] at h
  obtain ⟨s1, h1, _⟩ := bindO_some h
  exact pLitCI_contains h1

theorem pMetaThisResp_contains (s r : List Char) (h : pMetaThisResp s = some r) :
    containsCI "This".data s = true := by
  simp only [pMetaThisResp] at h
  obtain ⟨s1, h1, _⟩ := bindO_some h
  exact pLitCI_contains h1

theorem pMetaTheAbove_contains (s r : List Char) (h : pMetaTheAbove s = some r) :
    containsCI "The".data s = true := by
  simp only [pMetaTheAbove] at h
  obtain ⟨s1, h1, _⟩ := bindO_some h
  exact pLitCI_contains h1

theorem pMetaNote_contains (s r : List Char) (h : pMetaNote s = some r) :
    containsCI "Note:".data s = true := by
  simp only [pMetaNote] at h
  obtain ⟨s1, h1, _⟩ := bindO_some h
  exact pLitCI_contains h1

theorem pMetaInSummary_contains (s r : List Char) (h : pMetaInSummary s = some r) :
    containsCI "summary,".data s = true := by
  simp only [pMetaInSummary] at h
  obtain ⟨s1, h1, h⟩ := bindO_some h
  obtain ⟨s2, h2, h⟩ := bindO_some h
  obtain ⟨s3, h3, _⟩ := bindO_some h
  exact contains_at_suffix ((pRun1_suffix h2).trans (pLitCI_suffix _ _ _ h1)) h3

theorem pMetaPara_contains (s r : List Char) (h : pMetaPara s = some r) :
    ∃ key ∈ ["This".data, "The".data, "Note:".data, "In summary,".data],
      containsCI key s = true := by
  simp only [pMetaPara] at h
  obtain ⟨s1, h1, h⟩ := bindO_some h
  obtain ⟨s2, h2, h⟩ := bindO_some h
  obtain ⟨s3, h3, _⟩ := bindO_some h
  obtain ⟨key, hmem, hc⟩ := pAnyCI_contains _ s2 s3 h3
  exact ⟨key, hmem,
    containsCI_of_infix ((pChar_suffix h2).trans (pChar_suffix h1)).isInfix hc⟩

theorem pQuestionSection_contains (s r : List Char) (h : pQuestionSection s = some r) :
    containsCI "Question:".data s = true := by
  simp only [pQuestionSection] at h
  obtain ⟨s1, h1, _⟩ := bindO_some h
  exact pLitCI_contains h1

theorem pContextLine_contains (s r : List Char) (h : pContextLine s = some r) :
    containsCI "Context:".data s = true := by
  simp only [pContextLine] at h
  obtain ⟨s1, h1, _⟩ := bindO_some h
  exact pLitCI_contains h1

theorem pInstruction_contains (s r : List Char) (h : pInstruction s = some r) :
    containsCI "Provide a concise, complete answer and cite sources succinctly.".data s
      = true := by
  simp only [pInstruction] at h
  obtain ⟨s1, h1, _⟩ := bindO_some h
  exact pLitCI_contains h1

theorem pSystemPrompt_contains (s r : List Char) (h : pSystemPrompt s = some r) :
    containsCI "You are a helpful assistant".data s = true := by
  simp only [pSystemPrompt] at h
  obtain ⟨s1, h1, _⟩ := bindO_some h
  exact pLitCI_contains h1

theorem pRepeatedEcho_contains (s r : List Char) (h : pRepeatedEcho s = some r) :
    containsCI "Answer:".data s = true := by
  simp only [pRepeatedEcho, pRep2] at h
  obtain ⟨s1, h1, h⟩ := bindO_some h
  obtain ⟨s2, h2, _⟩ := bindO_some h1
  exact pLitCI_contains h2

theorem mNewlines_contains (s : List Char) (pr : Nat × List Char)
    (h : mNewlines s = some pr) : containsCI "\n\n\n".data s = true := by
  delta mNewlines at h
  split at h
  case _ rest =>
    rw [containsCI, containsL_iff]
    exact ⟨[], lowerL rest, by simp [lowerL, lowerChar]⟩
  case _ => exact absurd h (by simp)

theorem lastAnswerTailF_none (x : List Char) (hx : containsCI "Answer:".data x = false) :
    ∀ fuel s, s <:+ x → lastAnswerTailF fuel s = none := by
  intro fuel
  induction fuel with
  | zero => intro s _; rfl
  | succ fuel ih =>
    intro s hs
    cases s with
    | nil => rfl
    | cons c cs =>
      rw [lastAnswerTailF]
      cases hal : pAnswerLabel (c :: cs) with
      | some rest =>
        exfalso
        have := containsCI_of_infix hs.isInfix (pAnswerLabel_contains _ _ hal)
        rw [hx] at this
        exact absurd this (by simp)
      | none => exact ih cs ((List.suffix_cons c cs).trans hs)

theorem answerSplitPass_id (x : List Char) (hx : containsCI "Answer:".data x = false) :
    answerSplitPass x = x := by
  rw [answerSplitPass, lastAnswerTailF_none x hx x.length x (List.suffix_refl x)]

/-- The artifact keywords: the head literal of each cleaning pass. -/
def artifactKeys : List String :=
  ["Source", "Table", "Evidence", "Part", "Answer:", "Source:", "This", "The",
   "Note:", "summary,", "In summary,", "Question:", "Context:",
   "Provide a concise, complete answer and cite sources succinctly.",
   "You are a helpful assistant", "\n\n\n"]

/-- No artifact keyword occurs (case-insensitively) in the text. -/
def artifactFree (x : List Char) : Prop :=
  ∀ key ∈ artifactKeys, containsCI key.data x = false

/-- On artifact-free text every cleaning pass is the identity, so `clean_output`
reduces to `str.strip()`. -/
theorem cleanData_artifactFree (x : List Char) (hx : artifactFree x) :
    cleanData x = stripL x := by
  have k := fun (key : String) (hk : key ∈ artifactKeys) => hx key hk
  rw [cleanData]
  rw [reSubAll_toM_id _ _ _ pSourceBr_contains x (k "Source" (by simp [artifactKeys]))]
  rw [reSubAll_toM_id _ _ _ pTableBr_contains x (k "Table" (by simp [artifactKeys]))]
  rw [reSubAll_toM_id _ _ _ (pParenCites_contains "Source".data) x
    (k "Source" (by simp [artifactKeys]))]
  rw [reSubAll_toM_id _ _ _ (pParenCites_contains "Evidence".data) x
    (k "Evidence" (by simp [artifactKeys]))]
  rw [reSubAll_toM_id _ _ _ (pNameBr_contains "Evidence".data) x
    (k "Evidence" (by simp [artifactKeys]))]
  rw [reSubAllB_id _ _ mEvidenceWord_contains x (k "Evidence" (by simp [artifactKeys]))]
  rw [reSubAll_toM_id _ _ _ (pParenCites_contains "Part".data) x
    (k "Part" (by simp [artifactKeys]))]
  rw [reSubAll_toM_id _ _ _ (pNameBr_contains "Part".data) x
    (k "Part" (by simp [artifactKeys]))]
  rw [answerSplitPass_id x (k "Answer:" (by simp [artifactKeys]))]
  rw [reSubAllLS_toM_id _ _ _ pSourceContextLine_contains x
    (k "Source:" (by simp [artifactKeys]))]
  rw [reSubAll_toM_id _ _ _ pSourceContext_contains x
    (k "Source:" (by simp [artifactKeys]))]
  rw [reSubAll_toM_id _ _ _ pSourcesSection_contains x
    (k "Source" (by simp [artifactKeys]))]
  rw [reSubAll_toM_id _ _ _ pMetaThisSynth_contains x (k "This" (by simp [artifactKeys]))]
  rw [reSubAll_toM_id _ _ _ pMetaThisResp_contains x (k "This" (by simp [artifactKeys]))]
  rw [reSubAll_toM_id _ _ _ pMetaTheAbove_contains x (k "The" (by simp [artifactKeys]))]
  rw [reSubAll_toM_id _ _ _ pMetaNote_contains x (k "Note:" (by simp [artifactKeys]))]
  rw [reSubAll_toM_id _ _ _ pMetaInSummary_contains x
    (k "summary," (by simp [artifactKeys]))]
  rw [reSubAll_keys_id _ _ _ pMetaPara_contains x ?hpara]
  rw [reSubAll_toM_id _ _ _ pQuestionSection_contains x
    (k "Question:" (by simp [artifactKeys]))]
  rw [reSubAllLS_toM_id _ _ _ pContextLine_contains x
    (k "Context:" (by simp [artifactKeys]))]
  rw [reSubAll_toM_id _ _ _ pInstruction_contains x
    (k "Provide a concise, complete answer and cite sources succinctly."
      (by simp [artifactKeys]))]
  rw [reSubAll_toM_id _ _ _ pSystemPrompt_contains x
    (k "You are a helpful assistant" (by simp [artifactKeys]))]
  rw [reSubAll_toM_id _ _ _ pRepeatedEcho_contains x (k "Answer:" (by simp [artifactKeys]))]
  rw [reSubAll_m_id _ _ mNewlines_contains x (k "\n\n\n" (by simp [artifactKeys]))]
  case hpara =>
    intro key hkey
    simp only [List.mem_cons, List.not_mem_nil, or_false] at hkey
    rcases hkey with hkey | hkey | hkey | hkey
    · subst hkey; exact k "This" (by simp [artifactKeys])
    · subst hkey; exact k "The" (by simp [artifactKeys])
    · subst hkey; exact k "Note:" (by simp [artifactKeys])
    · subst hkey; exact k "In summary," (by simp [artifactKeys])

theorem dropWhile_idem (p : Char → Bool) (l : List Char) :
    (l.dropWhile p).dropWhile p = l.dropWhile p := by
  induction l with
  | nil => rfl
  | cons c cs ih =>
    rw [List.dropWhile_cons]
    by_cases hc : p c = true
    · rw [if_pos hc]
      exact ih
    · rw [if_neg hc, List.dropWhile_cons, if_neg hc]

theorem dropWhile_eq_cons_head (p : Char → Bool) (c : Char) (t l : List Char)
    (h : l.dropWhile p = c :: t) : p c = false := by
  induction l with
  | nil => simp at h
  | cons d ds ih =>
    rw [List.dropWhile_cons] at h
    by_cases hd : p d = true
    · rw [if_pos hd] at h
      exact ih h
    · rw [if_neg hd] at h
      rw [List.cons.injEq] at h
      rw [← h.1]
      exact Bool.not_eq_true _ |>.mp hd

theorem stripL_idem (l : List Char) : stripL (stripL l) = stripL l := by
  have hda : (l.dropWhile isWs).dropWhile isWs = l.dropWhile isWs := dropWhile_idem isWs l
  have hbr : (stripL l).reverse = (l.dropWhile isWs).reverse.dropWhile isWs := by
    rw [stripL, List.reverse_reverse]
  have hdb : (stripL l).dropWhile isWs = stripL l := by
    cases hbc : stripL l with
    | nil => rfl
    | cons c t =>
      have hpref : stripL l <+: l.dropWhile isWs := by
        obtain ⟨u, hu⟩ := List.dropWhile_suffix (l := (l.dropWhile isWs).reverse) isWs
        exact ⟨u.reverse, by rw [stripL, ← List.reverse_append, hu, List.reverse_reverse]⟩
      rw [hbc] at hpref
      obtain ⟨u, hu⟩ := hpref
      have hcfalse : isWs c = false :=
        dropWhile_eq_cons_head isWs c (t ++ u) (l.dropWhile isWs)
          (by rw [hda, ← hu]; simp)
      rw [List.dropWhile_cons, if_neg (by rw [hcfalse]; simp)]
  rw [stripL, hdb, hbr, dropWhile_idem, ← hbr, List.reverse_reverse]

theorem stripL_within (l : List Char) : stripL l <:+: l := by
  rw [stripL]
  have h1 : l.dropWhile isWs <:+ l := List.dropWhile_suffix isWs
  have h2 : ((l.dropWhile isWs).reverse.dropWhile isWs).reverse <+: l.dropWhile isWs := by
    obtain ⟨u, hu⟩ := List.dropWhile_suffix (l := (l.dropWhile isWs).reverse) isWs
    exact ⟨u.reverse, by rw [← List.reverse_append, hu, List.reverse_reverse]⟩
  exact h2.isInfix.trans h1.isInfix

theorem artifactFree_stripL (l : List Char) (h : artifactFree l) :
    artifactFree (stripL l) := by
  intro key hkey
  cases hc : containsCI key.data (stripL l) with
  | false => rfl
  | true =>
    exfalso
    have := containsCI_of_infix (stripL_within l) hc
    rw [h key hkey] at this
    exact absurd this (by simp)

/-- C3 (amended): `clean_output` is not idempotent on all strings — removing a
citation can splice together a new `[Source N]` citation from its surroundings —
but it is idempotent on any output free of the artifact keywords the passes
look for (`Source`, `Table`, `Evidence`, `Part`, `Answer:`, `This`, `The`,
`Note:`, `summary,`, `Question:`, `Context:`, the echoed instruction/system
prompt sentences, and triple newlines), on which cleaning reduces to
whitespace stripping. -/
theorem clean_output_idempotent_on_artifact_free (s : String)
    (h : artifactFree s.data) : clean_output (clean_output s) = clean_output s := by
  have h1 : cleanData s.data = stripL s.data := cleanData_artifactFree s.data h
  have h2 : cleanData (stripL s.data) = stripL (stripL s.data) :=
    cleanData_artifactFree (stripL s.data) (artifactFree_stripL s.data h)
  simp only [clean_output]
  rw [h1, h2, stripL_idem]

set_option maxRecDepth 20000 in
/-- Counterexample to C3 as stated: cleaning `"[Sour[Source 1]ce 1]"` removes the
inner `[Source 1]`, splicing the surroundings into a new `[Source 1]`; a second
cleaning removes that too, so `clean_output` is not idempotent. -/
theorem clean_output_not_idempotent :
    clean_output (clean_output "[Sour[Source 1]ce 1]")
      ≠ clean_output "[Sour[Source 1]ce 1]" := by
  decide

/-- Witness for the amended C3 at a concrete artifact-free input. -/
theorem clean_output_idempotent_witness :
    clean_output (clean_output "  good bold word  ") = clean_output "  good bold word  " :=
  clean_output_idempotent_on_artifact_free "  good bold word  "
    (by unfold artifactFree artifactKeys; decide)

end MedCortex
